import Mathlib

/-!
Verification of the eko workflow engine (TypeScript sources under `src/`).

The development shallowly embeds the data model and the operations of
`src/models/action.ts` (ActionImpl, WorkflowImpl) and of the ToolRegistry
into Lean.  JavaScript `Map`s become association lists that preserve
insertion order, JSON values become the inductive `JVal`, fallible code
returns `Except`, and the `async` round loop becomes explicit state
passing over a scripted LLM stream.
-/

namespace Eko

/-! ### JavaScript `Map` as an insertion-ordered association list -/

/-- Lookup in a JS `Map` (`map.get(k)`), `none` standing for `undefined`. -/
def mapGet {α : Type} (m : List (String × α)) (k : String) : Option α :=
  (m.find? (fun p => p.1 = k)).map (fun p => p.2)

/-- JS `map.set(k, v)`: replaces the value in place if the key is present
(keeping the original insertion position), otherwise appends. -/
def mapSet {α : Type} (m : List (String × α)) (k : String) (v : α) :
    List (String × α) :=
  if m.any (fun p => p.1 = k) then
    m.map (fun p => if p.1 = k then (k, v) else p)
  else
    m ++ [(k, v)]

/-- JS `map.delete(k)` (the removal effect; the returned Bool is unused). -/
def mapDelete {α : Type} (m : List (String × α)) (k : String) :
    List (String × α) :=
  m.filter (fun p => p.1 ≠ k)

/-- JS `Array.from(map.values())`: the values in insertion order. -/
def mapValues {α : Type} (m : List (String × α)) : List α :=
  m.map (fun p => p.2)

/-! ### JSON-like values -/

/-- A JSON-ish JavaScript value, as passed between the LLM, tools and the
workflow context.  `undefined` is represented by `Option JVal` at use
sites, not by a constructor. -/
inductive JVal where
  | null : JVal
  | bool (b : Bool) : JVal
  | num (n : Int) : JVal
  | str (s : String) : JVal
  | arr (xs : List JVal) : JVal
  | obj (fields : List (String × JVal)) : JVal
deriving Repr

/-- JS property access `v.k` on a value: `none` for `undefined`. -/
def jGet (v : JVal) (k : String) : Option JVal :=
  match v with
  | .obj fields => (fields.find? (fun p => p.1 = k)).map (fun p => p.2)
  | _ => none

/-- JS truthiness of a value. -/
def jtruthy : JVal → Bool
  | .null => false
  | .bool b => b
  | .num n => n ≠ 0
  | .str s => s ≠ ""
  | .arr _ => true
  | .obj _ => true

/-- JS truthiness where `none` is `undefined` (falsy). -/
def jtruthyOpt : Option JVal → Bool
  | none => false
  | some v => jtruthy v

/-- Escape of a character inside a JSON string literal (the cases
`JSON.stringify` produces for the values our model builds). -/
def escapeChar (c : Char) : String :=
  if c = '"' then "\\\"" else if c = '\\' then "\\\\" else String.singleton c

/-- Body of a JSON string literal. -/
def escapeString (s : String) : String :=
  String.join (s.toList.map escapeChar)

mutual
/-- Model of `JSON.stringify` on `JVal` (compact form, no spacing). -/
def stringify : JVal → String
  | .null => "null"
  | .bool b => if b then "true" else "false"
  | .num n => toString n
  | .str s => "\"" ++ escapeString s ++ "\""
  | .arr xs => "[" ++ stringifyList xs ++ "]"
  | .obj fields => "\x7b" ++ stringifyFields fields ++ "\x7d"

/-- Comma-joined stringification of array elements. -/
def stringifyList : List JVal → String
  | [] => ""
  | [x] => stringify x
  | x :: y :: rest => stringify x ++ "," ++ stringifyList (y :: rest)

/-- Comma-joined stringification of object fields. -/
def stringifyFields : List (String × JVal) → String
  | [] => ""
  | [(k, v)] => "\"" ++ escapeString k ++ "\":" ++ stringify v
  | (k, v) :: q :: rest =>
      "\"" ++ escapeString k ++ "\":" ++ stringify v ++ "," ++
        stringifyFields (q :: rest)
end

/-- JS `String(v)` coercion, used when a tool result's `text` field is
concatenated into a tool-result summary. -/
def jsToString : JVal → String
  | .null => "null"
  | .bool b => if b then "true" else "false"
  | .num n => toString n
  | .str s => s
  | .arr _ => ""
  | .obj _ => "[object Object]"

/-! ### Messages

The `Message` shape of `types/llm.types`: a role plus either a plain
string content or an array of content blocks.  A `tool_result` block's
content is either a plain string (the skip path writes `'跳过'`) or an
array of nested blocks; the two are separate constructors so that
`Array.isArray(item.content)` becomes a constructor test. -/

/-- Message role. -/
inductive Role where
  | system : Role
  | user : Role
  | assistant : Role
deriving DecidableEq, Repr

/-- One content block of a structured message. -/
inductive ContentItem where
  | text (s : String) : ContentItem
  | image (source : JVal) : ContentItem
  | toolUse (id : String) (name : String) (input : JVal) : ContentItem
  /-- a `tool_result` block whose `content` is an array of blocks -/
  | toolResult (tool_use_id : String) (content : List ContentItem)
      (is_error : Bool) : ContentItem
  /-- a `tool_result` block whose `content` is a plain string -/
  | toolResultStr (tool_use_id : String) (content : String)
      (is_error : Bool) : ContentItem
deriving Repr

/-- Message content: plain string or array of blocks. -/
inductive MessageContent where
  | str (s : String) : MessageContent
  | items (xs : List ContentItem) : MessageContent
deriving Repr

/-- A conversation message. -/
structure Message where
  role : Role
  content : MessageContent
deriving Repr

/-! ### `ActionImpl.handleHistoryImageMessages` (action.ts lines 301-338) -/

/-- Whether a block is an image block. -/
def isImageItem : ContentItem → Bool
  | .image _ => true
  | _ => false

/-- The per-block transformation the history pass applies inside an old
user message: a `tool_result` block with a non-empty array content loses
its image blocks, and if that empties the content it becomes the single
text block `"ok"` (action.ts lines 317-329). -/
def stripToolResultImages (item : ContentItem) : ContentItem :=
  match item with
  | .toolResult tid cs err =>
      if cs.length > 0 then
        let cs' := cs.filter (fun c => ! isImageItem c)
        if cs'.length = 0 then .toolResult tid [.text "ok"] err
        else .toolResult tid cs' err
      else .toolResult tid cs err
  | other => other

/-- The history pass on one message: only user messages with array
content are rewritten, block by block. -/
def processOldUserMessage (m : Message) : Message :=
  if m.role = .user then
    match m.content with
    | .items xs => { m with content := .items (xs.map stripToolResultImages) }
    | _ => m
  else m

/-- Reverse-order scan of the history: the first user message found from
the end (`foundFirstUser`) is left untouched, every later (older) user
message is rewritten.  The input list here is the reversed history. -/
def trimRev : Bool → List Message → List Message
  | _, [] => []
  | found, m :: rest =>
      if m.role = .user then
        if found then processOldUserMessage m :: trimRev true rest
        else m :: trimRev true rest
      else m :: trimRev found rest

/-- Model of `ActionImpl.handleHistoryImageMessages`: strips images from
the tool results of every user message except the most recent one
(action.ts lines 301-338).  The in-place mutation of the JS code becomes
a pure rewriting of the list. -/
def handleHistoryImageMessages (messages : List Message) : List Message :=
  (trimRev false messages.reverse).reverse

/-- Images inside one block, as `countImages` counts them (only images
nested in array-content `tool_result` blocks count). -/
def countImagesInItem : ContentItem → Nat
  | .toolResult _ cs _ => (cs.filter isImageItem).length
  | _ => 0

/-- Model of `ActionImpl.countImages` (action.ts lines 340-352). -/
def countImages (messages : List Message) : Nat :=
  (messages.map (fun m =>
    match m.content with
    | .items xs => (xs.map countImagesInItem).sum
    | _ => 0)).sum

/-- All images carried by one content block: a top-level image block
counts 1, a `tool_result` block counts the images nested in it. -/
def msgItemImages : ContentItem → Nat
  | .image _ => 1
  | .toolResult _ cs _ => (cs.filter isImageItem).length
  | _ => 0

/-- All images carried by one message: top-level image blocks plus the
images nested one level inside `tool_result` blocks. -/
def msgImageCount (m : Message) : Nat :=
  match m.content with
  | .items xs => (xs.map msgItemImages).sum
  | _ => 0

/-- A block is flat when any `tool_result` array content holds only text
and image blocks (the only shapes `executeSingleRound` produces). -/
def flatItem : ContentItem → Bool
  | .toolResult _ cs _ =>
      cs.all (fun c =>
        match c with
        | .text _ => true
        | .image _ => true
        | _ => false)
  | _ => true

/-- Shape of the histories the round loop builds: tool results are flat,
every message carrying an image is a user message, and images appear
only inside `tool_result` blocks (never as top-level user content). -/
def wellShapedHistory (messages : List Message) : Bool :=
  messages.all (fun m =>
    match m.content with
    | .items xs =>
        xs.all flatItem &&
        (decide (m.role = .user) || decide (msgImageCount m = 0)) &&
        xs.all (fun item => ! isImageItem item)
    | _ => true)

/-- Number of user messages that carry at least one image. -/
def imageBearingUserMessages (messages : List Message) : Nat :=
  (messages.filter (fun m => m.role = .user && msgImageCount m > 0)).length

/-- The trimming pass as it acts on one single message: old user
messages are rewritten, everything else passes through. -/
def trimmedMsg (m : Message) : Message :=
  if m.role = .user then processOldUserMessage m else m

/-- Statement vocabulary for C6: `m'` is `m` with every non-empty
all-image tool-result content replaced by the single `"ok"` text block
(at the same position, same `tool_use_id`, same `is_error` flag). -/
def okReplaced (m m' : Message) : Prop :=
  ∀ (xs : List ContentItem) (j : Nat) (hj : j < xs.length) (tid : String)
    (cs : List ContentItem) (err : Bool),
    m.role = .user → m.content = .items xs →
    xs.get ⟨j, hj⟩ = .toolResult tid cs err →
    cs ≠ [] → (∀ c ∈ cs, isImageItem c = true) →
    ∃ (xs' : List ContentItem) (hj' : j < xs'.length),
      m'.content = .items xs' ∧
      xs'.get ⟨j, hj'⟩ = .toolResult tid [.text "ok"] err

/-! ### The round loop of `ActionImpl.execute` (action.ts lines 354-504)

The LLM provider's streamed reply of one round is modelled as an
`LLMTurn`: optional assistant text plus at most one tool call (the
stream handler of `executeSingleRound` keeps a single `toolUseMessage`
and a single `toolExecutionPromise`, so one call per round is the shape
the code is written for).  A whole run is driven by a finite script of
turns; when the script is exhausted the stream completes without
invoking `onComplete`, leaving `response` null and `hasToolUse` false.

A tool's `execute(context, params)` is modelled as a function from the
context variables and the call input to either an error message (a
thrown exception) or updated variables plus a result value.  Cancellation
(`context.signal` / `__abort`) is not exercised by any claim and is
modelled as absent (no abort ever fires). -/

/-- One tool call streamed by the LLM. -/
structure ToolCall where
  id : String
  name : String
  input : JVal
deriving Repr

/-- One scripted assistant turn. -/
structure LLMTurn where
  text : String
  toolCall : Option ToolCall
deriving Repr

/-- The `LLMResponse` delivered to `onComplete`. -/
structure LLMResponse where
  textContent : String
  toolCalls : List ToolCall
deriving Repr

/-- Context variables (`context.variables`). -/
abbrev Vars := List (String × JVal)

/-- A tool's `execute`: may read and write the context variables and
either throws (error message) or returns a result value. -/
def ToolFn : Type := Vars → JVal → Except String (Vars × JVal)

/-- The sentinel context key `__action_<name>_output`. -/
def outputKeyOf (actionName : String) : String :=
  "__action_" ++ actionName ++ "_output"

/-- Model of the `return_output` tool created by `createReturnTool`
(action.ts lines 49-83): writes the raw call params under the sentinel
key and returns `\x7b success: true \x7d`. -/
def returnToolFn (actionName : String) : ToolFn :=
  fun vars params =>
    .ok (mapSet vars (outputKeyOf actionName) params,
         .obj [("success", .bool true)])

/-- Model of `WriteContextTool.execute` (action.ts lines 35-46): stores
the given value under the given key.  (The JS code first attempts
`JSON.parse` of the string value and falls back to storing the raw
string; the model stores the raw string — the parse only changes the
stored representation and no claim observes it.) -/
def writeContextFn : ToolFn :=
  fun vars params =>
    match jGet params "key", jGet params "value" with
    | some (.str k), some (.str v) => .ok (mapSet vars k (.str v), .obj [("success", .bool true), ("key", .str k), ("value", .str v)])
    | _, _ => .ok (vars, .obj [("success", .bool true)])

/-- Whether a tool result carries an image: JS `result && result.image`. -/
def resultHasImage (result : JVal) : Bool :=
  jtruthy result && jtruthyOpt (jGet result "image")

/-- The `resultContentText` summary recorded into `toolResults`
(action.ts lines 225-230). -/
def resultContentText (result : JVal) : String :=
  if resultHasImage result then
    match jGet result "text" with
    | some t => if jtruthy t then jsToString t ++ " [Image]" else "[Image]"
    | none => "[Image]"
  else stringify result

/-- The content blocks of the tool-result message (action.ts 207-224). -/
def resultContentBlocks (result : JVal) : List ContentItem :=
  if resultHasImage result then
    match jGet result "image", jGet result "text" with
    | some src, some t =>
        if jtruthy t then [.image src, .text (jsToString t)] else [.image src]
    | some src, none => [.image src]
    | none, _ => []
  else [.text (stringify result)]

/-- Error raised out of a round or of `execute` itself. -/
inductive RoundErr where
  /-- `throw new Error('工具未找到：...')` in `onToolUse` -/
  | toolNotFound (name : String) : RoundErr
  /-- the JS `TypeError` from reading `use_tool_result` of `undefined`
  when the sentinel was never written (action.ts line 494) -/
  | typeError : RoundErr
deriving DecidableEq, Repr

/-- Recorded tool results (`this.toolResults`): call id ↦ summary text. -/
abbrev ToolResults := List (String × String)

/-- The buffered assistant text message of one round: content only
accumulates when its trim is non-empty, and the buffer is emitted only
when non-empty (action.ts lines 138-142 and 288-290). -/
def assistantTextMessages (text : String) : List Message :=
  let atext := if text.trim = "" then "" else text
  if atext ≠ "" then [⟨Role.assistant, .str atext⟩] else []

/-- Outcome of one `executeSingleRound`. -/
structure RoundResult where
  response : Option LLMResponse
  hasToolUse : Bool
  roundMessages : List Message
  vars : Vars
  toolResults : ToolResults
  /-- the conversation after the in-place history trim -/
  hist : List Message
deriving Repr

/-- Model of `ActionImpl.executeSingleRound` (action.ts lines 107-299)
for a context without callback hooks and without an abort signal: the
history is trimmed in place, the scripted turn is streamed, at most one
tool call is looked up and executed, a thrown tool error is caught and
converted into an `is_error` tool-result message, and the buffered
messages are returned in order (assistant text, tool use, tool result). -/
def executeSingleRound (toolMap : List (String × ToolFn))
    (turn : Option LLMTurn) (messages : List Message) (vars : Vars)
    (toolResults : ToolResults) : Except RoundErr RoundResult :=
  let hist := handleHistoryImageMessages messages
  match turn with
  | none => .ok ⟨none, false, [], vars, toolResults, hist⟩
  | some t =>
    let textMsgs := assistantTextMessages t.text
    match t.toolCall with
    | none =>
        .ok ⟨some ⟨t.text, []⟩, false, textMsgs, vars, toolResults, hist⟩
    | some tc =>
        match mapGet toolMap tc.name with
        | none => .error (.toolNotFound tc.name)
        | some fn =>
          let toolUseMsg : Message :=
            ⟨.assistant, .items [.toolUse tc.id tc.name tc.input]⟩
          match fn vars tc.input with
          | .ok (vars', result) =>
              let resultMsg : Message :=
                ⟨.user, .items [.toolResult tc.id (resultContentBlocks result) false]⟩
              let toolResults' :=
                if tc.name ≠ "return_output" then
                  mapSet toolResults tc.id (resultContentText result)
                else toolResults
              .ok ⟨some ⟨t.text, [tc]⟩, true,
                   textMsgs ++ [toolUseMsg, resultMsg], vars', toolResults', hist⟩
          | .error emsg =>
              let errMsg : Message :=
                ⟨.user, .items [.toolResult tc.id [.text ("错误：" ++ emsg)] true]⟩
              .ok ⟨some ⟨t.text, [tc]⟩, true,
                   textMsgs ++ [toolUseMsg, errMsg], vars, toolResults, hist⟩

/-- State threaded through the `while` loop of `execute`. -/
structure LoopState where
  vars : Vars
  toolResults : ToolResults
  messages : List Message
  script : List LLMTurn
  /-- the JS `roundCount` -/
  rounds : Nat
deriving Repr

/-- Whether the streamed response contains a `return_output` call
(`response?.toolCalls.some(call => call.name === 'return_output')`). -/
def hasReturnCall (r : Option LLMResponse) : Bool :=
  match r with
  | none => false
  | some resp => resp.toolCalls.any (fun c => c.name = "return_output")

/-- Fold one round's outcome into the loop state: the caller's message
array was trimmed in place and the round messages are appended. -/
def applyRound (s : LoopState) (r : RoundResult) : LoopState :=
  { vars := r.vars, toolResults := r.toolResults,
    messages := r.hist ++ r.roundMessages,
    script := s.script.tail, rounds := s.rounds }

/-- The synthetic user message injected when the LLM answers without a
tool call (action.ts lines 438-442). -/
def explicitReturnRequest : Message :=
  ⟨.user, .str "请使用 return_output 工具处理上述信息并返回最终结果。"⟩

/-- The synthetic user message injected when the final round is forced
(action.ts lines 472-476). -/
def forcedReturnRequest : Message :=
  ⟨.user, .str "达到最大步数。请使用 return_output 工具尽可能返回最佳结果。"⟩

/-- Model of the `while (roundCount < this.maxRounds)` loop of
`ActionImpl.execute` (action.ts lines 392-486).  `remaining` is
`maxRounds - roundCount`; each iteration increments `rounds`, consumes
one scripted turn, and then follows the code's three termination
branches: text-only reply (inject an explicit-return request and run one
return-only round), a streamed `return_output` call (break), and the
forced final round when `roundCount` reaches `maxRounds`. -/
def runRounds (toolMap returnOnlyMap : List (String × ToolFn)) :
    Nat → LoopState → Except RoundErr LoopState
  | 0, s => .ok s
  | remaining + 1, s =>
    match executeSingleRound toolMap s.script.head? s.messages s.vars
        s.toolResults with
    | .error e => .error e
    | .ok r =>
      let s1 := applyRound { s with rounds := s.rounds + 1 } r
      if !r.hasToolUse && r.response.isSome then
        let s2 := { s1 with messages := s1.messages ++ [explicitReturnRequest] }
        match executeSingleRound returnOnlyMap s2.script.head? s2.messages
            s2.vars s2.toolResults with
        | .error e => .error e
        | .ok r2 => .ok (applyRound s2 r2)
      else if hasReturnCall r.response then .ok s1
      else if remaining = 0 then
        let s2 := { s1 with messages := s1.messages ++ [forcedReturnRequest] }
        match executeSingleRound returnOnlyMap s2.script.head? s2.messages
            s2.vars s2.toolResults with
        | .error e => .error e
        | .ok r2 => .ok (applyRound s2 r2)
      else runRounds toolMap returnOnlyMap remaining s1

/-- The `maxRounds` chosen by the constructor (action.ts lines 86 and
102-104): default 10, overridden only by a truthy `config.maxRounds`. -/
def maxRoundsOf (cfg : Option Nat) : Nat :=
  match cfg with
  | none => 10
  | some m => if m = 0 then 10 else m

/-- Output resolution after the loop (action.ts lines 488-503): read and
delete the sentinel, then pick either the most recent recorded tool
result (`use_tool_result` truthy) or the explicit `value`.  A missing
sentinel makes `outputParams.use_tool_result` a property read on
`undefined`, which throws a `TypeError`; a missing output value yields
the empty object with a warning. -/
def resolveOutput (actionName : String) (vars : Vars)
    (toolResults : ToolResults) : Except RoundErr (Vars × JVal) :=
  let outputKey := outputKeyOf actionName
  match mapGet vars outputKey with
  | none => .error .typeError
  | some outputParams =>
    let vars' := mapDelete vars outputKey
    let outputValue : Option JVal :=
      if jtruthyOpt (jGet outputParams "use_tool_result") then
        ((mapValues toolResults).getLast?).map JVal.str
      else jGet outputParams "value"
    match outputValue with
    | none => .ok (vars', .obj [])
    | some v => .ok (vars', v)

/-- Model of `ActionImpl.formatSystemPrompt` (action.ts lines 506-517):
a fixed instruction string (abbreviated; its exact wording is never
inspected by the code). -/
def formatSystemPrompt : String :=
  "你是一个子任务执行者。你需要完成用户指定的子任务，该子任务是整体任务的组成部分。通过调用提供的工具来协助用户完成任务。"

/-- Static description of the action surrounding one `execute` call:
the workflow description, the action description and the rendered
`JSON.stringify(input, null, 2)` of the node input. -/
structure ActionCtx where
  workflowDescription : Option String
  description : String
  inputDescription : Option String
deriving Repr

/-- JS `x || null` rendering of a nullable string into a template. -/
def optToStr : Option String → String
  | none => "null"
  | some s => s

/-- Model of `ActionImpl.formatUserPrompt` (action.ts lines 519-539). -/
def formatUserPrompt (actionName : String) (ctx : ActionCtx) (vars : Vars) :
    String :=
  "你正在执行工作流程中的一个子任务。工作流程的描述如下：" ++
    optToStr ctx.workflowDescription ++
  " 子任务描述如下：" ++ actionName ++ " -- " ++ ctx.description ++
  " 子任务的输入如下：" ++ optToStr ctx.inputDescription ++
  " 上下文中存储了一些变量，可以用来参考：" ++
  String.intercalate "\n"
    (vars.map (fun p => p.1 ++ ": " ++ stringify p.2))

/-- Model of `ActionImpl.execute` (action.ts lines 354-504) for a
context without callback hooks and without cancellation: build the tool
map (the action's tools — which the constructor extended with
`write_context` — plus the node's context tools, then the dynamically
created `return_output` tool), seed the conversation, run the round
loop over the scripted LLM, and resolve the output from the sentinel. -/
def executeAction (cfg : Option Nat) (tools : List (String × ToolFn))
    (actionName : String) (ctx : ActionCtx) (script : List LLMTurn)
    (vars : Vars) : Except RoundErr JVal :=
  let toolMap := mapSet tools "return_output" (returnToolFn actionName)
  let returnOnlyMap : List (String × ToolFn) :=
    [("return_output", returnToolFn actionName)]
  let messages : List Message :=
    [⟨.system, .str formatSystemPrompt⟩,
     ⟨.user, .str (formatUserPrompt actionName ctx vars)⟩]
  let s0 : LoopState := ⟨vars, [], messages, script, 0⟩
  match runRounds toolMap returnOnlyMap (maxRoundsOf cfg) s0 with
  | .error e => .error e
  | .ok s => (resolveOutput actionName s.vars s.toolResults).map (fun p => p.2)

/-- Statement vocabulary for C5: one scripted round in which the LLM
emits some text and one successful, non-`return_output` tool call whose
tool updates the variables by `upd` and returns `result`. -/
structure PreTurn where
  text : String
  tcId : String
  tcName : String
  tcInput : JVal
  upd : Vars → Vars
  result : JVal

/-- The `LLMTurn` a `PreTurn` scripts. -/
def preTurnToTurn (p : PreTurn) : LLMTurn :=
  ⟨p.text, some ⟨p.tcId, p.tcName, p.tcInput⟩⟩

/-- A scripted turn calling `return_output` with `use_tool_result: true`
and some (to-be-ignored) explicit `value`. -/
def returnTurn (id text : String) (v : JVal) : LLMTurn :=
  ⟨text, some ⟨id, "return_output",
    .obj [("use_tool_result", .bool true), ("value", v)]⟩⟩

/-- A scripted turn calling `return_output` with `use_tool_result: false`
and an explicit `value`. -/
def returnValueTurn (id text : String) (v : JVal) : LLMTurn :=
  ⟨text, some ⟨id, "return_output",
    .obj [("use_tool_result", .bool false), ("value", v)]⟩⟩

/-! ### `ToolRegistry` (core/tool-registry source part) -/

/-- A registered tool, reduced to the fields the registry stores and
serves (`name`, `description`). -/
structure RTool where
  name : String
  description : String
deriving DecidableEq, Repr

/-- The registry's backing `Map<string, Tool>`. -/
abbrev Registry := List (String × RTool)

/-- Model of `ToolRegistry.registerTool`: a bare `this.tools.set(tool.name,
tool)` — no presence check, no failure path. -/
def registerTool (reg : Registry) (tool : RTool) : Registry :=
  mapSet reg tool.name tool

/-- Model of `ToolRegistry.getTool`: throws when the name is absent. -/
def getTool (reg : Registry) (toolName : String) : Except String RTool :=
  match mapGet reg toolName with
  | some t => .ok t
  | none => .error ("名称为 " ++ toolName ++ " 的工具未找到")

/-! ### `WorkflowImpl` (action.ts lines 556-742) -/

/-- A workflow node, reduced to the fields the graph algorithms read:
its id and its declared dependency ids. -/
structure WorkflowNode where
  id : String
  dependencies : List String
deriving DecidableEq, Repr

/-- Errors thrown by the workflow methods. -/
inductive WErr where
  | cyclicDependency (id : String) : WErr
  | nodeNotFound (id : String) : WErr
  /-- `execute`'s own `工作流程无效： 包含循环依赖关系` -/
  | invalidWorkflow : WErr
  /-- recursion fuel of the model ran out (never reached for the fuel
  amounts the model passes, as proved below) -/
  | fuelExhausted : WErr
deriving DecidableEq, Repr

/-- Model of `WorkflowImpl.getNode` (action.ts lines 705-711). -/
def getNode (nodes : List WorkflowNode) (nodeId : String) :
    Except WErr WorkflowNode :=
  match nodes.find? (fun n => n.id = nodeId) with
  | some n => .ok n
  | none => .error (.nodeNotFound nodeId)

/-- The dependency edge relation of a workflow: `a` depends on `b`.
Edges go through `getNode`, exactly as every traversal in the code does. -/
def Edge (nodes : List WorkflowNode) (a b : String) : Prop :=
  ∃ n, getNode nodes a = .ok n ∧ b ∈ n.dependencies

/-- State of the cycle-detection DFS: the closure-captured `visited` and
`recursionStack` sets of `validateDAG` (action.ts lines 714-715). -/
structure DfsState where
  visited : List String
  recStack : List String
deriving DecidableEq, Repr

mutual
/-- Model of the `hasCycle` closure of `WorkflowImpl.validateDAG`
(action.ts lines 717-738), with explicit recursion fuel: grey hit
returns true, black hit returns false, otherwise the node is marked
grey and its dependencies are scanned with early exit; on a false
outcome the node is removed from the recursion stack. -/
def hasCycle (nodes : List WorkflowNode) :
    Nat → String → DfsState → Except WErr (Bool × DfsState)
  | 0, _, _ => .error .fuelExhausted
  | fuel + 1, nodeId, s =>
    if nodeId ∈ s.recStack then .ok (true, s)
    else if nodeId ∈ s.visited then .ok (false, s)
    else
      match getNode nodes nodeId with
      | .error e => .error e
      | .ok node =>
        let s1 : DfsState :=
          ⟨nodeId :: s.visited, nodeId :: s.recStack⟩
        match hasCycleDeps nodes fuel node.dependencies s1 with
        | .error e => .error e
        | .ok (true, s2) => .ok (true, s2)
        | .ok (false, s2) =>
            .ok (false, ⟨s2.visited, s2.recStack.erase nodeId⟩)
termination_by fuel _ _ => (fuel, 0)

/-- The `for (const depId of node.dependencies)` loop of `hasCycle`:
returns true as soon as one dependency closes a cycle. -/
def hasCycleDeps (nodes : List WorkflowNode) :
    Nat → List String → DfsState → Except WErr (Bool × DfsState)
  | _, [], s => .ok (false, s)
  | fuel, d :: ds, s =>
    match hasCycle nodes fuel d s with
    | .error e => .error e
    | .ok (true, s') => .ok (true, s')
    | .ok (false, s') => hasCycleDeps nodes fuel ds s'
termination_by fuel ds _ => (fuel, ds.length + 1)
end

/-- The `this.nodes.some(node => hasCycle(node.id))` scan, threading the
shared closure state and short-circuiting on the first true. -/
def someHasCycle (nodes : List WorkflowNode) :
    List WorkflowNode → DfsState → Except WErr Bool
  | [], _ => .ok false
  | n :: ns, s =>
    match hasCycle nodes (nodes.length + 1) n.id s with
    | .error e => .error e
    | .ok (true, _) => .ok true
    | .ok (false, s') => someHasCycle nodes ns s'

/-- Model of `WorkflowImpl.validateDAG` (action.ts lines 713-741). -/
def validateDAG (nodes : List WorkflowNode) : Except WErr Bool :=
  match someHasCycle nodes nodes ⟨[], []⟩ with
  | .error e => .error e
  | .ok b => .ok (!b)

/-- Model of `WorkflowImpl.removeNode` (action.ts lines 686-703): find
the index (throw when absent), throw when some node depends on the id,
otherwise splice it out.  The first component is the node list after the
call — the `splice` only happens on the success path, so on both error
paths the list comes back unchanged. -/
def removeNode (nodes : List WorkflowNode) (nodeId : String) :
    List WorkflowNode × Except String Unit :=
  match nodes.findIdx? (fun n => n.id = nodeId) with
  | none => (nodes, .error ("id为 " ++ nodeId ++ " 的节点未找到"))
  | some index =>
    let dependentNodes := nodes.filter (fun n => nodeId ∈ n.dependencies)
    if dependentNodes.length > 0 then
      (nodes, .error ("无法删除节点 " ++ nodeId ++ "：依赖于它的节点包括 " ++
        String.intercalate ", " (dependentNodes.map (fun n => n.id))))
    else (nodes.eraseIdx index, .ok ())

/-- Model of `WorkflowImpl.addNode` (action.ts lines 679-684). -/
def addNode (nodes : List WorkflowNode) (node : WorkflowNode) :
    Except String (List WorkflowNode) :=
  if nodes.any (fun n => n.id = node.id) then
    .error ("id为 " ++ node.id ++ " 的节点已存在")
  else .ok (nodes ++ [node])

/-! ### `WorkflowImpl.execute` (action.ts lines 587-677)

Node outputs are abstracted by `act : String → List (Option Nat) → Nat`:
the value `node.action.execute` produces from the node id and from the
collected dependency outputs (an unset `output.value` — JS `undefined` —
is `none`).  The `beforeSubtask` hook's only modelled effect is the
per-node skip decision `skip : String → Bool` (`context.__skip`); abort
signals are not exercised by any claim and are modelled as never firing.

`executeNode` is ported statement by statement; the
`Promise.all(terminalNodes.map(...))` at line 672 is modelled in two
ways: `execDeps` runs the branches sequentially to completion (the
behaviour when branch interleavings do not interact), and `startAll`
below models the synchronous start phase of the real cooperative
schedule, which is where interleavings do interact. -/

/-- Mutable execution state shared by all `executeNode` calls: the
`executed` and `executing` sets, every node's `output.value`, and the
trace of performed action invocations `(node id, input.items)`. -/
structure WfState where
  executed : List String
  executing : List String
  outputs : List (String × Nat)
  trace : List (String × List (Option Nat))
deriving DecidableEq, Repr

/-- The initial workflow execution state. -/
def initWfState : WfState := ⟨[], [], [], []⟩

/-- Input collection (action.ts lines 643-647): one `getNode` per
declared dependency, pushing that node's current `output` value. -/
def collectInputs (nodes : List WorkflowNode) (s : WfState)
    (deps : List String) : Except WErr (List (Option Nat)) :=
  deps.mapM (fun d =>
    match getNode nodes d with
    | .error e => .error e
    | .ok _ => .ok (mapGet s.outputs d))

mutual
/-- Model of the `executeNode` closure (action.ts lines 598-665):
return immediately when already executed, throw the cyclic-dependency
error when the node is currently executing, mark it executing, resolve
the declared dependencies sequentially in order, collect the inputs,
honour the `beforeSubtask` skip (which returns without unmarking!),
otherwise run the action, record the output and move the node from
`executing` to `executed`. -/
def executeNode (nodes : List WorkflowNode)
    (act : String → List (Option Nat) → Nat) (skip : String → Bool) :
    Nat → String → WfState → WfState × Except WErr Unit
  | 0, _, s => (s, .error .fuelExhausted)
  | fuel + 1, nodeId, s =>
    if nodeId ∈ s.executed then (s, .ok ())
    else if nodeId ∈ s.executing then (s, .error (.cyclicDependency nodeId))
    else
      match getNode nodes nodeId with
      | .error e => (s, .error e)
      | .ok node =>
        let s1 := { s with executing := nodeId :: s.executing }
        match execDeps nodes act skip fuel node.dependencies s1 with
        | (s2, .error e) => (s2, .error e)
        | (s2, .ok _) =>
          match collectInputs nodes s2 node.dependencies with
          | .error e => (s2, .error e)
          | .ok input =>
            if skip nodeId then (s2, .ok ())
            else
              let value := act nodeId input
              ({ executed := nodeId :: s2.executed,
                 executing := s2.executing.erase nodeId,
                 outputs := mapSet s2.outputs nodeId value,
                 trace := s2.trace ++ [(nodeId, input)] }, .ok ())
termination_by fuel _ _ => (fuel, 0)

/-- The sequential `for (const depId of node.dependencies) await
executeNode(depId)` loop (action.ts lines 638-640), stopping at the
first rejection. -/
def execDeps (nodes : List WorkflowNode)
    (act : String → List (Option Nat) → Nat) (skip : String → Bool) :
    Nat → List String → WfState → WfState × Except WErr Unit
  | _, [], s => (s, .ok ())
  | fuel, d :: ds, s =>
    match executeNode nodes act skip fuel d s with
    | (s', .ok _) => execDeps nodes act skip fuel ds s'
    | r => r
termination_by fuel ds _ => (fuel, ds.length + 1)
end

/-- The terminal nodes: `this.nodes.filter(node => !this.nodes.some(n =>
n.dependencies.includes(node.id)))` (action.ts lines 668-670). -/
def terminalNodes (nodes : List WorkflowNode) : List WorkflowNode :=
  nodes.filter (fun node =>
    ! nodes.any (fun n => node.id ∈ n.dependencies))

/-- Model of `WorkflowImpl.execute` (action.ts lines 587-677) under the
sequential branch schedule: validate the DAG first (rejecting before any
node runs), execute the terminal branches, and return the terminal
outputs.  The final state is returned even on error, mirroring that a JS
exception does not roll back the mutated sets. -/
def executeWorkflow (nodes : List WorkflowNode)
    (act : String → List (Option Nat) → Nat) (skip : String → Bool) :
    WfState × Except WErr (List (Option Nat)) :=
  match validateDAG nodes with
  | .ok true =>
    match execDeps nodes act skip (nodes.length + 1)
        ((terminalNodes nodes).map (fun n => n.id)) initWfState with
    | (s, .ok _) =>
        (s, .ok ((terminalNodes nodes).map (fun n => mapGet s.outputs n.id)))
    | (s, .error e) => (s, .error e)
  | .ok false => (initWfState, .error .invalidWorkflow)
  | .error e => (initWfState, .error e)

/-! ### The synchronous start phase of `Promise.all`

`await Promise.all(terminalNodes.map(node => executeNode(node.id)))`
(action.ts line 672) first evaluates `executeNode` for every terminal in
list order.  An `async` function body runs synchronously until its first
genuine suspension; without a callback the only awaits on the way down
are the recursive `await executeNode(depId)` calls and the final `await
node.action.execute(...)`, so each branch descends its dependency chain
synchronously — marking every node on the path `executing` — until the
first action call suspends it (or until it throws).  Only then does the
next branch start.  `syncStart` reproduces exactly this synchronous
prefix of one branch, and `startAll` the in-order starts of all
branches (a rejected branch does not stop the `map`). -/

/-- How the synchronous start of one branch ends. -/
inductive StartOutcome where
  /-- returned without suspending (every node on the way was already
  executed, or the node was skipped) -/
  | done : StartOutcome
  /-- suspended at `await node.action.execute(...)` inside node `id`,
  leaving the whole descent path in `executing` -/
  | paused (id : String) : StartOutcome
  /-- the branch rejected synchronously -/
  | errored (e : WErr) : StartOutcome
deriving DecidableEq, Repr

mutual
/-- The synchronous prefix of `executeNode` (no callback hooks): same
checks and bookkeeping as `executeNode`, but the branch suspends —
outcome `paused` — when it reaches its first `await
node.action.execute(...)`. -/
def syncStart (nodes : List WorkflowNode) (skip : String → Bool) :
    Nat → String → WfState → WfState × StartOutcome
  | 0, _, s => (s, .errored .fuelExhausted)
  | fuel + 1, nodeId, s =>
    if nodeId ∈ s.executed then (s, .done)
    else if nodeId ∈ s.executing then
      (s, .errored (.cyclicDependency nodeId))
    else
      match getNode nodes nodeId with
      | .error e => (s, .errored e)
      | .ok node =>
        let s1 := { s with executing := nodeId :: s.executing }
        match syncStartDeps nodes skip fuel node.dependencies s1 with
        | (s2, .done) =>
          match collectInputs nodes s2 node.dependencies with
          | .error e => (s2, .errored e)
          | .ok _ =>
            if skip nodeId then (s2, .done)
            else (s2, .paused nodeId)
        | r => r
termination_by fuel _ _ => (fuel, 0)

/-- The dependency loop of the synchronous start: a paused dependency
suspends the parent (`await executeNode(depId)`), so later dependencies
are not started. -/
def syncStartDeps (nodes : List WorkflowNode) (skip : String → Bool) :
    Nat → List String → WfState → WfState × StartOutcome
  | _, [], s => (s, .done)
  | fuel, d :: ds, s =>
    match syncStart nodes skip fuel d s with
    | (s', .done) => syncStartDeps nodes skip fuel ds s'
    | r => r
termination_by fuel ds _ => (fuel, ds.length + 1)
end

/-- Start every terminal branch in order (the `terminalNodes.map`),
collecting each branch's synchronous outcome. -/
def startAll (nodes : List WorkflowNode) (skip : String → Bool)
    (ids : List String) (s : WfState) : WfState × List StartOutcome :=
  match ids with
  | [] => (s, [])
  | t :: ts =>
    let (s', o) := syncStart nodes skip (nodes.length + 1) t s
    let (s'', os) := startAll nodes skip ts s'
    (s'', o :: os)

/-! ### Reachability helpers for the terminal-branch disjointness check -/

/-- The declared dependencies of an id, empty when the id resolves to no
node. -/
def depsOfId (nodes : List WorkflowNode) (x : String) : List String :=
  match getNode nodes x with
  | .ok n => n.dependencies
  | .error _ => []

/-- One dependency-closure expansion step. -/
def reachStep (nodes : List WorkflowNode) (acc : List String) :
    List String :=
  (acc ++ acc.flatMap (depsOfId nodes)).dedup

/-- Ids reachable from `start` through dependency edges (including
`start` itself), computed by saturating for `fuel` steps. -/
def reachList (nodes : List WorkflowNode) : Nat → List String →
    List String
  | 0, acc => acc
  | fuel + 1, acc => reachList nodes fuel (reachStep nodes acc)

/-- Pairwise disjointness of a family of id lists. -/
def pairwiseDisjoint : List (List String) → Bool
  | [] => true
  | r :: rest =>
      rest.all (fun r2 => r.all (fun x => ! r2.contains x)) &&
        pairwiseDisjoint rest

/-- Whether the dependency-reachable sets of distinct terminal nodes are
pairwise disjoint (no dependency shared across terminal branches). -/
def disjointTerminalBranches (nodes : List WorkflowNode) : Bool :=
  pairwiseDisjoint ((terminalNodes nodes).map (fun t =>
    reachList nodes (nodes.length + 1) [t.id]))

/-- Well-formedness: every declared dependency references an existing
node. -/
def wfDeps (nodes : List WorkflowNode) : Bool :=
  nodes.all (fun n =>
    n.dependencies.all (fun d => nodes.any (fun m => m.id = d)))

/-! ### DFS statement vocabulary (for the `validateDAG` proofs) -/

/-- An id is black (finished) in the DFS state: visited and no longer on
the recursion stack. -/
def dfsBlack (s : DfsState) (x : String) : Prop :=
  x ∈ s.visited ∧ x ∉ s.recStack

/-- Invariant of the cycle-detection DFS in the rounds where no cycle
has been reported: the stack is visited, black ids only step to black
ids, and no dependency cycle passes through a black id. -/
def DfsGood (nodes : List WorkflowNode) (s : DfsState) : Prop :=
  (∀ x ∈ s.recStack, x ∈ s.visited) ∧
  (∀ x, dfsBlack s x → ∀ y, Edge nodes x y → dfsBlack s y) ∧
  (∀ x, dfsBlack s x → ¬ Relation.TransGen (Edge nodes) x x)

/-- Number of distinct node ids not yet visited (DFS fuel measure). -/
def dfsWhites (nodes : List WorkflowNode) (s : DfsState) : Nat :=
  (((nodes.map (fun n => n.id)).dedup).filter
    (fun x => decide (x ∉ s.visited))).length

/-- Postcondition of a `hasCycle` call that returned `false`: invariant
kept, recursion stack restored, visited grown, black set grown. -/
def DfsPost (nodes : List WorkflowNode) (s s' : DfsState) : Prop :=
  DfsGood nodes s' ∧ s'.recStack = s.recStack ∧ s.visited ⊆ s'.visited ∧
  (∀ x, dfsBlack s x → dfsBlack s' x)

/-! ### Workflow-execution statement vocabulary (for C4) -/

/-- Trace correctness: every recorded action invocation `(id, input)`
named an existing node, its input was exactly that node's declared
dependency outputs in declaration order, and every dependency had been
executed (traced) strictly before it. -/
def TraceOK (nodes : List WorkflowNode) (s : WfState) : Prop :=
  ∀ i (hi : i < s.trace.length),
    ∃ node, getNode nodes (s.trace.get ⟨i, hi⟩).1 = .ok node ∧
      (s.trace.get ⟨i, hi⟩).2 =
        node.dependencies.map (fun d => mapGet s.outputs d) ∧
      ∀ d ∈ node.dependencies, d ∈ (s.trace.take i).map Prod.fst

/-- Execution-state invariant of the sequential workflow run: the trace
has no duplicate node ids, the `executed` set, the trace and the
recorded outputs name the same ids, `executed` is closed under
dependency edges, and the trace is correct. -/
def ExecInv (nodes : List WorkflowNode) (s : WfState) : Prop :=
  (s.trace.map Prod.fst).Nodup ∧
  (∀ x, x ∈ s.executed ↔ x ∈ s.trace.map Prod.fst) ∧
  (∀ x, x ∈ s.executed ↔ (mapGet s.outputs x).isSome) ∧
  (∀ x ∈ s.executed, ∀ y, Edge nodes x y → y ∈ s.executed) ∧
  TraceOK nodes s

/-- Number of distinct node ids not currently executing (the recursion
fuel measure of `executeNode`). -/
def freshCount (nodes : List WorkflowNode) (l : List String) : Nat :=
  (((nodes.map (fun n => n.id)).dedup).filter
    (fun x => decide (x ∉ l))).length

/-- Postcondition of a successful non-skipping `executeNode`/`execDeps`
run from `s` to s2: the invariant holds again, the `executing` stack is
restored exactly, `executed` only grows, recorded outputs are never
lost, and the trace is only appended to. -/
def NodeRunOK (nodes : List WorkflowNode) (s s2 : WfState) : Prop :=
  ExecInv nodes s2 ∧ s2.executing = s.executing ∧
  (∀ x ∈ s.executed, x ∈ s2.executed) ∧
  (∀ x v, mapGet s.outputs x = some v → mapGet s2.outputs x = some v) ∧
  (∃ tl, s2.trace = s.trace ++ tl)

/-! ## Proofs -/

/-! ### Map lemmas -/

theorem mapGet_mapSet_self {α : Type} (m : List (String × α)) (k : String)
    (v : α) : mapGet (mapSet m k v) k = some v := by
  unfold mapGet mapSet
  split
  · rename_i h
    induction m with
    | nil => simp_all
    | cons p rest ih =>
      by_cases hp : p.1 = k
      · simp [List.find?, hp]
      · simp only [List.any_cons, Bool.or_eq_true, decide_eq_true_eq] at h
        rcases h with h | h
        · exact absurd h hp
        · simpa [List.find?, hp] using ih (by simpa using h)
  · induction m with
    | nil => simp [List.find?]
    | cons p rest ih =>
      rename_i h
      simp only [List.any_cons, Bool.or_eq_true, decide_eq_true_eq,
        not_or] at h
      simp only [List.cons_append, List.find?]
      rw [show (decide (p.1 = k)) = false by simp [h.1]]
      exact ih (by simpa using h.2)

theorem mapSet_of_not_mem {α : Type} (m : List (String × α)) (k : String)
    (v : α) (h : ∀ p ∈ m, p.1 ≠ k) : mapSet m k v = m ++ [(k, v)] := by
  unfold mapSet
  rw [if_neg]
  simp only [List.any_eq_true, decide_eq_true_eq, not_exists, not_and]
  intro p hp
  exact h p hp

theorem mapGet_append_right {α : Type} (m₁ m₂ : List (String × α))
    (k : String) (h : ∀ p ∈ m₁, p.1 ≠ k) :
    mapGet (m₁ ++ m₂) k = mapGet m₂ k := by
  unfold mapGet
  induction m₁ with
  | nil => simp
  | cons p rest ih =>
    have hp : p.1 ≠ k := h p (by simp)
    simp only [List.cons_append, List.find?]
    rw [show (decide (p.1 = k)) = false by simp [hp]]
    exact ih (fun q hq => h q (by simp [hq]))

theorem find?_mapSetMap {α : Type} (m : List (String × α)) (k k' : String)
    (v : α) (hne : k' ≠ k) :
    List.find? (fun p => decide (p.1 = k'))
      (m.map (fun p => if p.1 = k then (k, v) else p)) =
    List.find? (fun p => decide (p.1 = k')) m := by
  induction m with
  | nil => simp
  | cons p rest ih =>
    by_cases hp : p.1 = k
    · simp only [List.map_cons, List.find?, if_pos hp]
      rw [show (decide (k = k')) = false by simp [Ne.symm hne]]
      rw [show (decide (p.1 = k')) = false by
        simp [hp]; exact Ne.symm hne]
      exact ih
    · simp only [List.map_cons, List.find?, if_neg hp]
      by_cases hpk : p.1 = k'
      · simp [hpk]
      · rw [show (decide (p.1 = k')) = false by simp [hpk]]
        exact ih

theorem mapGet_mapSet_ne {α : Type} (m : List (String × α)) (k k' : String)
    (v : α) (hne : k' ≠ k) : mapGet (mapSet m k v) k' = mapGet m k' := by
  unfold mapGet mapSet
  split
  · rw [find?_mapSetMap m k k' v hne]
  · rw [List.find?_append]
    have : List.find? (fun p => decide (p.1 = k')) [(k, v)] = none := by
      simp [List.find?, Ne.symm hne]
    simp [this]

theorem mapValues_append {α : Type} (m₁ m₂ : List (String × α)) :
    mapValues (m₁ ++ m₂) = mapValues m₁ ++ mapValues m₂ := by
  simp [mapValues]

/-! ### C2: duplicate tool registration -/

/-- C2.  The claim states that `registerTool` rejects a tool whose name
is already registered and leaves the previous tool in place.  The code
is a bare `Map.set`: registering a second tool under the name
`mock_tool` succeeds silently and replaces the first tool, so `getTool`
afterwards serves the second tool.  (The repository's own test suite —
`注册重复工具时应抛出` in `test/integration/workflow.generator.test.ts` —
expects the duplicate registration to throw, so this is a bug in the
code, not in the claim.) -/
theorem c2_registerTool_overwrites_duplicate :
    registerTool (registerTool [] ⟨"mock_tool", "第一个工具"⟩)
        ⟨"mock_tool", "第二个工具"⟩ =
      [("mock_tool", ⟨"mock_tool", "第二个工具"⟩)] ∧
    getTool (registerTool (registerTool [] ⟨"mock_tool", "第一个工具"⟩)
        ⟨"mock_tool", "第二个工具"⟩) "mock_tool" =
      .ok ⟨"mock_tool", "第二个工具"⟩ := by
  exact ⟨rfl, rfl⟩

/-! ### C8: removing a depended-upon node fails without mutation -/

/-- C8.  Removing a node id that some other node lists among its
dependencies fails with an error, and the node list after the call is
the unchanged original (the `splice` is only reached on the success
path, which the dependent check precedes). -/
theorem c8_removeNode_dependent_fails (nodes : List WorkflowNode)
    (nodeId : String)
    (h : ∃ n, n ∈ nodes ∧ nodeId ∈ n.dependencies ∧ n.id ≠ nodeId) :
    (∃ e, (removeNode nodes nodeId).2 = .error e) ∧
    (removeNode nodes nodeId).1 = nodes := by
  obtain ⟨n, hn, hdep, -⟩ := h
  have hmem : n ∈ nodes.filter (fun n => nodeId ∈ n.dependencies) := by
    rw [List.mem_filter]
    exact ⟨hn, by simpa using hdep⟩
  have hlen : 0 < (nodes.filter (fun n => nodeId ∈ n.dependencies)).length :=
    List.length_pos.mpr (List.ne_nil_of_mem hmem)
  unfold removeNode
  split
  · exact ⟨⟨_, rfl⟩, rfl⟩
  · dsimp only
    split
    · exact ⟨⟨_, rfl⟩, rfl⟩
    · rename_i hcon
      exact absurd hlen hcon

/-- Witness for C8 at a concrete two-node workflow: node `b` depends on
`a`, so removing `a` fails and the list is unchanged. -/
theorem c8_removeNode_dependent_fails_witness :
    (∃ n, n ∈ [WorkflowNode.mk "a" [], WorkflowNode.mk "b" ["a"]] ∧
        "a" ∈ n.dependencies ∧ n.id ≠ "a") ∧
    (∃ e, (removeNode [WorkflowNode.mk "a" [], WorkflowNode.mk "b" ["a"]]
        "a").2 = .error e) ∧
    (removeNode [WorkflowNode.mk "a" [], WorkflowNode.mk "b" ["a"]] "a").1 =
      [WorkflowNode.mk "a" [], WorkflowNode.mk "b" ["a"]] := by
  have h : ∃ n, n ∈ [WorkflowNode.mk "a" [], WorkflowNode.mk "b" ["a"]] ∧
      "a" ∈ n.dependencies ∧ n.id ≠ "a" :=
    ⟨⟨"b", ["a"]⟩, by decide, by decide, by decide⟩
  exact ⟨h, c8_removeNode_dependent_fails _ _ h⟩

/-! ### C10: the default round budget is 10 -/

theorem runRounds_rounds_le (toolMap returnOnlyMap : List (String × ToolFn)) :
    ∀ (n : Nat) (s s' : LoopState),
      runRounds toolMap returnOnlyMap n s = .ok s' →
      s'.rounds ≤ s.rounds + n := by
  intro n
  induction n with
  | zero =>
    intro s s' h
    simp only [runRounds] at h
    cases h
    omega
  | succ n ih =>
    intro s s' h
    unfold runRounds at h
    split at h
    · cases h
    · dsimp only at h
      split at h
      · split at h
        · cases h
        · cases h
          simp [applyRound]
      · split at h
        · cases h
          simp [applyRound]
        · split at h
          · split at h
            · cases h
            · cases h
              simp [applyRound]
          · have := ih _ _ h
            simp only [applyRound] at this
            omega

/-- C10.  An `ActionImpl` constructed without `config.maxRounds` (or
with the falsy value 0) keeps the constructor default `maxRounds = 10`,
and the round loop of `execute` performs at most 10 rounds (counted by
the JS `roundCount`) whatever the scripted conversation does. -/
theorem c10_default_max_rounds (cfg : Option Nat)
    (hcfg : cfg = none ∨ cfg = some 0) :
    maxRoundsOf cfg = 10 ∧
    ∀ (toolMap returnOnlyMap : List (String × ToolFn))
      (vars : Vars) (toolResults : ToolResults) (messages : List Message)
      (script : List LLMTurn) (s' : LoopState),
      runRounds toolMap returnOnlyMap (maxRoundsOf cfg)
        ⟨vars, toolResults, messages, script, 0⟩ = .ok s' →
      s'.rounds ≤ 10 := by
  have hmax : maxRoundsOf cfg = 10 := by
    rcases hcfg with h | h <;> subst h <;> rfl
  refine ⟨hmax, ?_⟩
  intro toolMap returnOnlyMap vars toolResults messages script s' h
  have := runRounds_rounds_le toolMap returnOnlyMap (maxRoundsOf cfg) _ _ h
  rw [hmax] at this
  simpa using this

/-- Witness for C10: with no configuration and an empty script the loop
runs exactly 10 rounds (ending with the forced-return request) and its
final round counter stays within 10. -/
theorem c10_default_max_rounds_witness :
    maxRoundsOf none = 10 ∧
    runRounds [] [] (maxRoundsOf none) ⟨[], [], [], [], 0⟩ =
      .ok ⟨[], [], [forcedReturnRequest], [], 10⟩ ∧
    (⟨[], [], [forcedReturnRequest], [], 10⟩ : LoopState).rounds ≤ 10 := by
  have hrun : runRounds [] [] (maxRoundsOf none) ⟨[], [], [], [], 0⟩ =
      .ok ⟨[], [], [forcedReturnRequest], [], 10⟩ := by rfl
  exact ⟨(c10_default_max_rounds none (Or.inl rfl)).1, hrun,
    (c10_default_max_rounds none (Or.inl rfl)).2 [] [] [] [] [] [] _ hrun⟩

/-! ### C1: a run that never records the output sentinel -/

/-- C1.  The claim (and the spec) say that when the round loop ends
without the sentinel `__action_<name>_output` ever being written,
`execute` resolves to an empty object with a logged warning and never
throws.  In the code, `context.variables.get(outputKey)` then yields
`undefined` and the unguarded property read
`outputParams.use_tool_result` (action.ts line 494 — note the `?.` one
line below that shows the guarded intent) throws a `TypeError` before
the `outputValue === undefined` branch that would return `\x7b\x7d` can
run.  Concretely: the scripted LLM answers round 1 with plain text, the
injected explicit-return round produces no `return_output` call, the
loop breaks, and `execute` rejects with the `TypeError` instead of
resolving to the empty object. -/
theorem c1_missing_sentinel_throws_type_error :
    executeAction none [] "act" ⟨none, "一个子任务", none⟩
        [⟨"你好，这是一条没有工具调用的回复。", none⟩] [] =
      .error .typeError := by
  rfl

/-! ### C6: history image trimming -/

theorem strip_toolResult (tid : String) (cs : List ContentItem) (err : Bool) :
    stripToolResultImages (.toolResult tid cs err) =
      if cs.length > 0 then
        (if (cs.filter (fun c => ! isImageItem c)).length = 0 then
          ContentItem.toolResult tid [.text "ok"] err
        else .toolResult tid (cs.filter (fun c => ! isImageItem c)) err)
      else .toolResult tid cs err := rfl

theorem stripToolResultImages_idem (item : ContentItem) :
    stripToolResultImages (stripToolResultImages item) =
      stripToolResultImages item := by
  cases item with
  | toolResult tid cs err =>
    rw [strip_toolResult]
    by_cases h0 : cs.length > 0
    · rw [if_pos h0]
      by_cases h1 : (cs.filter (fun c => ! isImageItem c)).length = 0
      · rw [if_pos h1, strip_toolResult]
        norm_num [isImageItem]
      · rw [if_neg h1, strip_toolResult,
          if_pos (show (cs.filter (fun c => ! isImageItem c)).length > 0 by
            omega)]
        rw [List.filter_filter]
        simp only [Bool.and_self]
        rw [if_neg h1]
    · rw [if_neg h0, strip_toolResult, if_neg h0]
  | text s => rfl
  | image src => rfl
  | toolUse id name input => rfl
  | toolResultStr tid c err => rfl

theorem processOldUserMessage_role (m : Message) :
    (processOldUserMessage m).role = m.role := by
  unfold processOldUserMessage
  split
  · split <;> rfl
  · rfl

theorem trimmedMsg_role (m : Message) : (trimmedMsg m).role = m.role := by
  unfold trimmedMsg
  split
  · exact processOldUserMessage_role m
  · rfl

theorem processOldUserMessage_items (m : Message) (xs : List ContentItem)
    (hm : m.role = .user) (hc : m.content = .items xs) :
    processOldUserMessage m =
      { m with content := .items (xs.map stripToolResultImages) } := by
  unfold processOldUserMessage
  rw [if_pos hm, hc]

theorem processOldUserMessage_str (m : Message) (s : String)
    (hc : m.content = .str s) : processOldUserMessage m = m := by
  unfold processOldUserMessage
  split
  · rw [hc]
  · rfl

theorem processOldUserMessage_idem (m : Message) (hm : m.role = .user) :
    processOldUserMessage (processOldUserMessage m) =
      processOldUserMessage m := by
  cases hc : m.content with
  | str s =>
    rw [processOldUserMessage_str m s hc,
        processOldUserMessage_str m s hc]
  | items xs =>
    rw [processOldUserMessage_items m xs hm hc]
    rw [processOldUserMessage_items ⟨m.role, .items (xs.map stripToolResultImages)⟩
      (xs.map stripToolResultImages) hm rfl]
    simp only [List.map_map]
    congr 2
    apply List.map_congr_left
    intro a _
    exact stripToolResultImages_idem a

theorem trimmedMsg_idem (m : Message) :
    trimmedMsg (trimmedMsg m) = trimmedMsg m := by
  unfold trimmedMsg
  by_cases hm : m.role = .user
  · rw [if_pos hm, if_pos (by rw [processOldUserMessage_role]; exact hm)]
    exact processOldUserMessage_idem m hm
  · rw [if_neg hm, if_neg hm]

theorem trimRev_cons_user_true (m : Message) (l : List Message)
    (hm : m.role = .user) :
    trimRev true (m :: l) = processOldUserMessage m :: trimRev true l := by
  have step : trimRev true (m :: l) =
      if m.role = .user then processOldUserMessage m :: trimRev true l
      else m :: trimRev true l := rfl
  rw [step, if_pos hm]

theorem trimRev_cons_user_false (m : Message) (l : List Message)
    (hm : m.role = .user) :
    trimRev false (m :: l) = m :: trimRev true l := by
  have step : trimRev false (m :: l) =
      if m.role = .user then m :: trimRev true l
      else m :: trimRev false l := rfl
  rw [step, if_pos hm]

theorem trimRev_cons_nonuser (found : Bool) (m : Message)
    (l : List Message) (hm : m.role ≠ .user) :
    trimRev found (m :: l) = m :: trimRev found l := by
  have step : trimRev found (m :: l) =
      if m.role = .user then
        (if found then processOldUserMessage m :: trimRev true l
         else m :: trimRev true l)
      else m :: trimRev found l := by
    cases found <;> rfl
  rw [step, if_neg hm]

theorem trimRev_true_eq_map (l : List Message) :
    trimRev true l = l.map trimmedMsg := by
  induction l with
  | nil => rfl
  | cons m rest ih =>
    by_cases hm : m.role = .user
    · rw [trimRev_cons_user_true m rest hm, ih, List.map_cons]
      congr 1
      unfold trimmedMsg
      rw [if_pos hm]
    · rw [trimRev_cons_nonuser true m rest hm, ih, List.map_cons]
      congr 1
      unfold trimmedMsg
      rw [if_neg hm]

theorem trimRev_false_no_user (l₁ l₂ : List Message)
    (h : ∀ m ∈ l₁, m.role ≠ .user) :
    trimRev false (l₁ ++ l₂) = l₁ ++ trimRev false l₂ := by
  induction l₁ with
  | nil => rfl
  | cons m rest ih =>
    have hm : m.role ≠ .user := h m (by simp)
    rw [List.cons_append, trimRev_cons_nonuser false m _ hm,
        ih (fun x hx => h x (by simp [hx])), List.cons_append]

/-- The structural effect of one trimming pass on a history whose last
user message is `u`: everything up to `u` is rewritten per message,
`u` and the trailing non-user messages are untouched. -/
theorem handleHistory_decomp (pre post : List Message) (u : Message)
    (hu : u.role = .user) (hpost : ∀ m ∈ post, m.role ≠ .user) :
    handleHistoryImageMessages (pre ++ u :: post) =
      pre.map trimmedMsg ++ u :: post := by
  unfold handleHistoryImageMessages
  rw [show (pre ++ u :: post).reverse = post.reverse ++ u :: pre.reverse by
    simp]
  rw [trimRev_false_no_user post.reverse (u :: pre.reverse)
    (fun m hm => hpost m (List.mem_reverse.mp hm))]
  rw [trimRev_cons_user_false u pre.reverse hu]
  rw [trimRev_true_eq_map]
  simp

theorem handleHistory_idem (messages : List Message) :
    handleHistoryImageMessages (handleHistoryImageMessages messages) =
      handleHistoryImageMessages messages := by
  unfold handleHistoryImageMessages
  rw [List.reverse_reverse]
  generalize messages.reverse = l
  congr 1
  induction l with
  | nil => rfl
  | cons m rest ih =>
    by_cases hm : m.role = .user
    · rw [trimRev_cons_user_false m rest hm,
          trimRev_cons_user_false m (trimRev true rest) hm,
          trimRev_true_eq_map, trimRev_true_eq_map, List.map_map]
      congr 1
      apply List.map_congr_left
      intro a _
      exact trimmedMsg_idem a
    · rw [trimRev_cons_nonuser false m rest hm,
          trimRev_cons_nonuser false m (trimRev false rest) hm, ih]

theorem countImagesInItem_strip (item : ContentItem) :
    countImagesInItem (stripToolResultImages item) = 0 := by
  cases item with
  | toolResult tid cs err =>
    rw [strip_toolResult]
    by_cases h0 : cs.length > 0
    · rw [if_pos h0]
      by_cases h1 : (cs.filter (fun c => ! isImageItem c)).length = 0
      · rw [if_pos h1]
        rfl
      · rw [if_neg h1]
        show (List.filter isImageItem
          (cs.filter (fun c => ! isImageItem c))).length = 0
        rw [List.filter_filter]
        simp
    · rw [if_neg h0]
      have hcs : cs = [] := by
        cases cs with
        | nil => rfl
        | cons a l => simp at h0
      subst hcs
      rfl
  | text s => rfl
  | image src => rfl
  | toolUse id name input => rfl
  | toolResultStr tid c err => rfl

theorem msgItemImages_strip (item : ContentItem)
    (htop : isImageItem item = false) :
    msgItemImages (stripToolResultImages item) = 0 := by
  cases item with
  | toolResult tid cs err =>
    rw [strip_toolResult]
    by_cases h0 : cs.length > 0
    · rw [if_pos h0]
      by_cases h1 : (cs.filter (fun c => ! isImageItem c)).length = 0
      · rw [if_pos h1]
        rfl
      · rw [if_neg h1]
        show (List.filter isImageItem
          (cs.filter (fun c => ! isImageItem c))).length = 0
        rw [List.filter_filter]
        simp
    · rw [if_neg h0]
      have hcs : cs = [] := by
        cases cs with
        | nil => rfl
        | cons a l => simp at h0
      subst hcs
      rfl
  | text s => rfl
  | image src => simp [isImageItem] at htop
  | toolUse id name input => rfl
  | toolResultStr tid c err => rfl

theorem msgImageCount_processed (m : Message) (hm : m.role = .user)
    (htop : ∀ xs, m.content = .items xs →
      ∀ item ∈ xs, isImageItem item = false) :
    msgImageCount (processOldUserMessage m) = 0 := by
  cases hc : m.content with
  | str s =>
    rw [processOldUserMessage_str m s hc]
    unfold msgImageCount
    rw [hc]
  | items xs =>
    rw [processOldUserMessage_items m xs hm hc]
    show (List.map msgItemImages (xs.map stripToolResultImages)).sum = 0
    rw [List.map_map, List.sum_eq_zero]
    intro x hx
    simp only [List.mem_map, Function.comp] at hx
    obtain ⟨item, hitem, rfl⟩ := hx
    exact msgItemImages_strip item (htop xs hc item hitem)

/-- The shape facts `wellShapedHistory` gives for one member message. -/
theorem wellShaped_spec (messages : List Message) (m : Message)
    (h : wellShapedHistory messages = true) (hm : m ∈ messages) :
    (m.role ≠ .user → msgImageCount m = 0) ∧
    (∀ xs, m.content = .items xs → ∀ item ∈ xs, isImageItem item = false) := by
  unfold wellShapedHistory at h
  rw [List.all_eq_true] at h
  have hms := h m hm
  cases hc : m.content with
  | str s =>
    constructor
    · intro _
      unfold msgImageCount
      rw [hc]
    · intro xs hxs
      cases hxs
  | items xs =>
    rw [hc] at hms
    simp only [Bool.and_eq_true, Bool.or_eq_true, decide_eq_true_eq] at hms
    obtain ⟨⟨hflat, huser⟩, htop⟩ := hms
    constructor
    · intro hrole
      rcases huser with h' | h'
      · exact absurd h' hrole
      · exact h'
    · intro ys hys item hitem
      cases hys
      rw [List.all_eq_true] at htop
      simpa using htop item hitem

/-- C6.  One application of the history-preparation step leaves image
content only in the most recent user message `u` (every older message
and every trailing non-user message counts zero images), replaces older
non-empty all-image tool-result contents by the single text block
`"ok"`, and a second application changes nothing. -/
theorem c6_history_image_trim (pre post : List Message) (u : Message)
    (hu : u.role = .user) (hpost : ∀ m ∈ post, m.role ≠ .user)
    (hshape : wellShapedHistory (pre ++ u :: post) = true)
    (hcount : 2 ≤ imageBearingUserMessages (pre ++ u :: post)) :
    ∃ pre',
      handleHistoryImageMessages (pre ++ u :: post) = pre' ++ u :: post ∧
      (∀ m' ∈ pre', msgImageCount m' = 0) ∧
      (∀ m ∈ post, msgImageCount m = 0) ∧
      List.Forall₂ okReplaced pre pre' ∧
      handleHistoryImageMessages
          (handleHistoryImageMessages (pre ++ u :: post)) =
        handleHistoryImageMessages (pre ++ u :: post) := by
  refine ⟨pre.map trimmedMsg, handleHistory_decomp pre post u hu hpost,
    ?_, ?_, ?_, handleHistory_idem _⟩
  · intro m' hm'
    rw [List.mem_map] at hm'
    obtain ⟨m, hm, rfl⟩ := hm'
    have hspec := wellShaped_spec _ m hshape (by simp [hm])
    unfold trimmedMsg
    by_cases hrole : m.role = .user
    · rw [if_pos hrole]
      exact msgImageCount_processed m hrole hspec.2
    · rw [if_neg hrole]
      exact hspec.1 hrole
  · intro m hm
    have hspec := wellShaped_spec _ m hshape (by simp [hm])
    exact hspec.1 (hpost m hm)
  · rw [List.forall₂_map_right_iff]
    apply List.forall₂_same.mpr
    intro m hm
    intro xs j hj tid cs err hrole hc hget hne hall
    refine ⟨xs.map stripToolResultImages, by simpa using hj, ?_, ?_⟩
    · unfold trimmedMsg processOldUserMessage
      rw [if_pos hrole, if_pos hrole, hc]
    · have h0 : cs.length > 0 := by
        cases cs with
        | nil => exact absurd rfl hne
        | cons a l => simp
      have h1 : (cs.filter (fun c => ! isImageItem c)).length = 0 := by
        rw [List.length_eq_zero, List.filter_eq_nil]
        intro a ha
        simp [hall a ha]
      rw [List.get_map, hget, strip_toolResult, if_pos h0, if_pos h1]

/-- Witness for C6 at a concrete history: two image-bearing tool results
in two user turns followed by a trailing assistant message. -/
theorem c6_history_image_trim_witness :
    (Message.mk .user (.items [.toolResult "t2"
        [.image .null, .text "页面内容"] false])).role = .user ∧
    wellShapedHistory
      ([Message.mk .user (.items [.toolResult "t1" [.image .null] false])] ++
        Message.mk .user (.items [.toolResult "t2"
          [.image .null, .text "页面内容"] false]) ::
        [Message.mk .assistant (.str "好的")]) = true ∧
    2 ≤ imageBearingUserMessages
      ([Message.mk .user (.items [.toolResult "t1" [.image .null] false])] ++
        Message.mk .user (.items [.toolResult "t2"
          [.image .null, .text "页面内容"] false]) ::
        [Message.mk .assistant (.str "好的")]) ∧
    (∃ pre',
      handleHistoryImageMessages
        ([Message.mk .user (.items [.toolResult "t1" [.image .null] false])] ++
          Message.mk .user (.items [.toolResult "t2"
            [.image .null, .text "页面内容"] false]) ::
          [Message.mk .assistant (.str "好的")]) =
        pre' ++ Message.mk .user (.items [.toolResult "t2"
          [.image .null, .text "页面内容"] false]) ::
          [Message.mk .assistant (.str "好的")] ∧
      (∀ m' ∈ pre', msgImageCount m' = 0) ∧
      (∀ m ∈ [Message.mk .assistant (.str "好的")], msgImageCount m = 0) ∧
      List.Forall₂ okReplaced
        [Message.mk .user (.items [.toolResult "t1" [.image .null] false])]
        pre' ∧
      handleHistoryImageMessages (handleHistoryImageMessages
        ([Message.mk .user (.items [.toolResult "t1" [.image .null] false])] ++
          Message.mk .user (.items [.toolResult "t2"
            [.image .null, .text "页面内容"] false]) ::
          [Message.mk .assistant (.str "好的")])) =
        handleHistoryImageMessages
          ([Message.mk .user (.items [.toolResult "t1" [.image .null] false])] ++
            Message.mk .user (.items [.toolResult "t2"
              [.image .null, .text "页面内容"] false]) ::
            [Message.mk .assistant (.str "好的")])) := by
  refine ⟨rfl, by decide, by decide, ?_⟩
  exact c6_history_image_trim
    [Message.mk .user (.items [.toolResult "t1" [.image .null] false])]
    [Message.mk .assistant (.str "好的")]
    (Message.mk .user (.items [.toolResult "t2"
      [.image .null, .text "页面内容"] false]))
    rfl (by decide) (by decide) (by decide)

/-! ### Characterizations of one round -/

theorem executeSingleRound_none (tm : List (String × ToolFn))
    (msgs : List Message) (vars : Vars) (trs : ToolResults) :
    executeSingleRound tm none msgs vars trs =
      .ok ⟨none, false, [], vars, trs, handleHistoryImageMessages msgs⟩ := rfl

theorem executeSingleRound_noTool (tm : List (String × ToolFn))
    (text : String) (msgs : List Message) (vars : Vars)
    (trs : ToolResults) :
    executeSingleRound tm (some ⟨text, none⟩) msgs vars trs =
      .ok ⟨some ⟨text, []⟩, false, assistantTextMessages text, vars, trs,
        handleHistoryImageMessages msgs⟩ := rfl

theorem executeSingleRound_toolOk (tm : List (String × ToolFn))
    (text : String) (tc : ToolCall) (fn : ToolFn) (vars' : Vars)
    (result : JVal) (msgs : List Message) (vars : Vars) (trs : ToolResults)
    (hmap : mapGet tm tc.name = some fn)
    (hfn : fn vars tc.input = .ok (vars', result)) :
    executeSingleRound tm (some ⟨text, some tc⟩) msgs vars trs =
      .ok ⟨some ⟨text, [tc]⟩, true,
        assistantTextMessages text ++
          [⟨.assistant, .items [.toolUse tc.id tc.name tc.input]⟩,
           ⟨.user, .items [.toolResult tc.id (resultContentBlocks result)
             false]⟩],
        vars',
        (if tc.name ≠ "return_output" then
          mapSet trs tc.id (resultContentText result) else trs),
        handleHistoryImageMessages msgs⟩ := by
  simp only [executeSingleRound, hmap, hfn]

theorem executeSingleRound_toolErr (tm : List (String × ToolFn))
    (text : String) (tc : ToolCall) (fn : ToolFn) (emsg : String)
    (msgs : List Message) (vars : Vars) (trs : ToolResults)
    (hmap : mapGet tm tc.name = some fn)
    (hfn : fn vars tc.input = .error emsg) :
    executeSingleRound tm (some ⟨text, some tc⟩) msgs vars trs =
      .ok ⟨some ⟨text, [tc]⟩, true,
        assistantTextMessages text ++
          [⟨.assistant, .items [.toolUse tc.id tc.name tc.input]⟩,
           ⟨.user, .items [.toolResult tc.id [.text ("错误：" ++ emsg)]
             true]⟩],
        vars, trs, handleHistoryImageMessages msgs⟩ := by
  simp only [executeSingleRound, hmap, hfn]

/-! ### C5: `return_output` with `use_tool_result: true` -/

theorem getLast?_map_of_ne_nil {α β : Type} (g : α → β) (l : List α)
    (h : l ≠ []) : (l.map g).getLast? = some (g (l.getLast h)) := by
  rcases List.eq_nil_or_concat' l with rfl | ⟨L, b, rfl⟩
  · exact absurd rfl h
  · rw [List.map_append, List.map_singleton, List.getLast?_concat,
      List.getLast_concat]

theorem hasReturnCall_return (text id2 : String) (params : JVal) :
    hasReturnCall (some ⟨text, [⟨id2, "return_output", params⟩]⟩) = true := by
  simp [hasReturnCall]

theorem hasReturnCall_other (text id2 nm : String) (params : JVal)
    (h : nm ≠ "return_output") :
    hasReturnCall (some ⟨text, [⟨id2, nm, params⟩]⟩) = false := by
  simp [hasReturnCall, h]

/-- Unfolding equation of one loop iteration with rounds remaining. -/
theorem runRounds_succ_eq (tm rm : List (String × ToolFn)) (k : Nat)
    (s : LoopState) :
    runRounds tm rm (k + 1) s =
      match executeSingleRound tm s.script.head? s.messages s.vars
          s.toolResults with
      | .error e => .error e
      | .ok r =>
        let s1 := applyRound { s with rounds := s.rounds + 1 } r
        if !r.hasToolUse && r.response.isSome then
          let s2 := { s1 with messages := s1.messages ++ [explicitReturnRequest] }
          match executeSingleRound rm s2.script.head? s2.messages s2.vars
              s2.toolResults with
          | .error e => .error e
          | .ok r2 => .ok (applyRound s2 r2)
        else if hasReturnCall r.response then .ok s1
        else if k = 0 then
          let s2 := { s1 with messages := s1.messages ++ [forcedReturnRequest] }
          match executeSingleRound rm s2.script.head? s2.messages s2.vars
              s2.toolResults with
          | .error e => .error e
          | .ok r2 => .ok (applyRound s2 r2)
        else runRounds tm rm k s1 := rfl

/-- One loop iteration that streams a `return_output` call: the loop
breaks right after folding the round in. -/
theorem runRounds_break (tm rm : List (String × ToolFn)) (k : Nat)
    (s : LoopState) (r : RoundResult)
    (hE : executeSingleRound tm s.script.head? s.messages s.vars
      s.toolResults = .ok r)
    (hTool : r.hasToolUse = true)
    (hRet : hasReturnCall r.response = true) :
    runRounds tm rm (k + 1) s =
      .ok (applyRound { s with rounds := s.rounds + 1 } r) := by
  rw [runRounds_succ_eq, hE]
  dsimp only
  rw [if_neg (by rw [hTool]; simp)]
  rw [if_pos hRet]

/-- One loop iteration that streams a tool call other than
`return_output` (with rounds still remaining): the loop folds the round
in and continues. -/
theorem runRounds_continue (tm rm : List (String × ToolFn)) (k : Nat)
    (s : LoopState) (r : RoundResult)
    (hE : executeSingleRound tm s.script.head? s.messages s.vars
      s.toolResults = .ok r)
    (hTool : r.hasToolUse = true)
    (hRet : hasReturnCall r.response = false)
    (hk : k ≠ 0) :
    runRounds tm rm (k + 1) s =
      runRounds tm rm k (applyRound { s with rounds := s.rounds + 1 } r) := by
  rw [runRounds_succ_eq, hE]
  dsimp only
  rw [if_neg (by rw [hTool]; simp)]
  rw [if_neg (by rw [hRet]; simp)]
  rw [if_neg hk]

/-- Core run of a scripted conversation: some successful non-return tool
rounds followed by one `return_output(use_tool_result: true)` round.
The loop records every tool result in order, breaks at the return call,
and leaves the raw return params under the sentinel key. -/
theorem c5_run (tools : List (String × ToolFn)) (actionName : String)
    (rid rtext : String) (v : JVal) :
    ∀ (pres : List PreTurn) (rem : Nat) (s : LoopState),
      s.script = pres.map preTurnToTurn ++ [returnTurn rid rtext v] →
      pres.length + 1 ≤ rem →
      (pres.map (fun p => p.tcId)).Nodup →
      (∀ p ∈ pres, ∀ q ∈ s.toolResults, q.1 ≠ p.tcId) →
      (∀ p ∈ pres, p.tcName ≠ "return_output" ∧
        ∃ fn, mapGet (mapSet tools "return_output" (returnToolFn actionName))
            p.tcName = some fn ∧
          (∀ vars, fn vars p.tcInput = .ok (p.upd vars, p.result))) →
      ∃ sF, runRounds (mapSet tools "return_output" (returnToolFn actionName))
          [("return_output", returnToolFn actionName)] rem s = .ok sF ∧
        sF.toolResults = s.toolResults ++
          pres.map (fun p => (p.tcId, resultContentText p.result)) ∧
        mapGet sF.vars (outputKeyOf actionName) =
          some (.obj [("use_tool_result", .bool true), ("value", v)]) := by
  intro pres
  induction pres with
  | nil =>
    intro rem s hscript hlen hnodup hdisj htools
    obtain ⟨k, rfl⟩ : ∃ k, rem = k + 1 := ⟨rem - 1, by omega⟩
    have hhead : s.script.head? = some ⟨rtext, some ⟨rid, "return_output",
        .obj [("use_tool_result", .bool true), ("value", v)]⟩⟩ := by
      rw [hscript]; rfl
    have hround := executeSingleRound_toolOk
      (mapSet tools "return_output" (returnToolFn actionName)) rtext
      ⟨rid, "return_output", .obj [("use_tool_result", .bool true),
        ("value", v)]⟩
      (returnToolFn actionName)
      (mapSet s.vars (outputKeyOf actionName)
        (.obj [("use_tool_result", .bool true), ("value", v)]))
      (.obj [("success", .bool true)]) s.messages s.vars s.toolResults
      (mapGet_mapSet_self tools "return_output" (returnToolFn actionName))
      rfl
    rw [← hhead] at hround
    refine ⟨_, runRounds_break _ _ k s _ hround rfl
      (hasReturnCall_return rtext rid _), ?_, ?_⟩
    · simp [applyRound]
    · simp only [applyRound]
      exact mapGet_mapSet_self _ _ _
  | cons p pres' ih =>
    intro rem s hscript hlen hnodup hdisj htools
    obtain ⟨k, rfl⟩ : ∃ k, rem = k + 1 := ⟨rem - 1, by omega⟩
    obtain ⟨hname, fn, hmap, hfn⟩ := htools p (by simp)
    have hhead : s.script.head? =
        some ⟨p.text, some ⟨p.tcId, p.tcName, p.tcInput⟩⟩ := by
      rw [hscript]; rfl
    have hround := executeSingleRound_toolOk
      (mapSet tools "return_output" (returnToolFn actionName)) p.text
      ⟨p.tcId, p.tcName, p.tcInput⟩ fn (p.upd s.vars) p.result
      s.messages s.vars s.toolResults hmap (hfn s.vars)
    rw [← hhead] at hround
    have hk : k ≠ 0 := by
      simp only [List.length_cons] at hlen
      omega
    have hcont := runRounds_continue
      (mapSet tools "return_output" (returnToolFn actionName))
      [("return_output", returnToolFn actionName)] k s _ hround rfl
      (hasReturnCall_other p.text p.tcId p.tcName p.tcInput hname) hk
    have hfresh : ∀ q ∈ s.toolResults, q.1 ≠ p.tcId := fun q hq =>
      hdisj p (by simp) q hq
    have hrec := ih k (applyRound { s with rounds := s.rounds + 1 }
      ⟨some ⟨p.text, [⟨p.tcId, p.tcName, p.tcInput⟩]⟩, true,
        assistantTextMessages p.text ++
          [⟨.assistant, .items [.toolUse p.tcId p.tcName p.tcInput]⟩,
           ⟨.user, .items [.toolResult p.tcId
             (resultContentBlocks p.result) false]⟩],
        p.upd s.vars,
        (if p.tcName ≠ "return_output" then
          mapSet s.toolResults p.tcId (resultContentText p.result)
        else s.toolResults),
        handleHistoryImageMessages s.messages⟩)
      (by simp only [applyRound]
          rw [hscript]
          rfl)
      (by simp only [List.length_cons] at hlen; omega)
      (by simpa using hnodup.of_cons)
      (by intro p' hp' q hq
          simp only [applyRound, if_pos hname] at hq
          rw [mapSet_of_not_mem _ _ _ hfresh] at hq
          rcases List.mem_append.mp hq with hq | hq
          · exact hdisj p' (by simp [hp']) q hq
          · have hqe : q = (p.tcId, resultContentText p.result) := by
              simpa using hq
            subst hqe
            have hni : p.tcId ∉ pres'.map (fun p => p.tcId) :=
              (List.nodup_cons.mp hnodup).1
            simp only [ne_eq]
            intro hcontra
            exact hni (by rw [hcontra]; exact List.mem_map_of_mem _ hp'))
      (fun q hq => htools q (by simp [hq]))
    obtain ⟨sF, hrun, htrs, hvar⟩ := hrec
    refine ⟨sF, ?_, ?_, hvar⟩
    · rw [hcont]
      exact hrun
    · rw [htrs]
      simp only [applyRound, if_pos hname]
      rw [mapSet_of_not_mem _ _ _ hfresh]
      simp

/-- C5.  For every run in which one or more non-`return_output` tool
rounds succeed (each recording its result) and the LLM then calls
`return_output` with `use_tool_result: true`, `execute` returns the most
recent recorded tool result — the summary text of the last tool round —
as the node output; the explicit `value` parameter `v` is ignored. -/
theorem c5_use_tool_result_returns_last (cfg : Option Nat)
    (tools : List (String × ToolFn)) (actionName : String) (ctx : ActionCtx)
    (pres : List PreTurn) (initVars : Vars) (rid rtext : String) (v : JVal)
    (hne : pres ≠ [])
    (hlen : pres.length + 1 ≤ maxRoundsOf cfg)
    (hnodup : (pres.map (fun p => p.tcId)).Nodup)
    (htools : ∀ p ∈ pres, p.tcName ≠ "return_output" ∧
      ∃ fn, mapGet (mapSet tools "return_output" (returnToolFn actionName))
          p.tcName = some fn ∧
        (∀ vars, fn vars p.tcInput = .ok (p.upd vars, p.result))) :
    executeAction cfg tools actionName ctx
        (pres.map preTurnToTurn ++ [returnTurn rid rtext v]) initVars =
      .ok (.str (resultContentText (pres.getLast hne).result)) := by
  obtain ⟨sF, hrun, htrs, hvar⟩ := c5_run tools actionName rid rtext v pres
    (maxRoundsOf cfg)
    ⟨initVars, [], [⟨.system, .str formatSystemPrompt⟩,
      ⟨.user, .str (formatUserPrompt actionName ctx initVars)⟩],
      pres.map preTurnToTurn ++ [returnTurn rid rtext v], 0⟩
    rfl hlen hnodup (fun p hp q hq => by cases hq) htools
  have hval : (((mapValues sF.toolResults).getLast?).map JVal.str) =
      some (.str (resultContentText (pres.getLast hne).result)) := by
    rw [htrs]
    simp only [List.nil_append, mapValues, List.map_map]
    rw [getLast?_map_of_ne_nil _ pres hne]
    rfl
  have hres : resolveOutput actionName sF.vars sF.toolResults =
      .ok (mapDelete sF.vars (outputKeyOf actionName),
        .str (resultContentText (pres.getLast hne).result)) := by
    unfold resolveOutput
    dsimp only
    rw [hvar]
    dsimp only
    rw [show jtruthyOpt (jGet (JVal.obj [("use_tool_result", JVal.bool true),
      ("value", v)]) "use_tool_result") = true from rfl]
    rw [if_pos rfl]
    rw [hval]
  unfold executeAction
  dsimp only
  rw [hrun]
  dsimp only
  rw [hres]
  rfl

/-- Witness for C5: one successful tool round recording `"结果A"`, then
`return_output(use_tool_result: true, value: null)`; the output is the
recorded (stringified) tool result, not the null value. -/
theorem c5_use_tool_result_returns_last_witness :
    (([⟨"查询", "call-1", "echo_tool", .null, fun vars => vars,
        .str "结果A"⟩] : List PreTurn) ≠ []) ∧
    (([⟨"查询", "call-1", "echo_tool", .null, fun vars => vars,
        .str "结果A"⟩] : List PreTurn).length + 1 ≤ maxRoundsOf none) ∧
    ((([⟨"查询", "call-1", "echo_tool", .null, fun vars => vars,
        .str "结果A"⟩] : List PreTurn).map (fun p => p.tcId)).Nodup) ∧
    executeAction none
        [("echo_tool", fun vars _ => .ok (vars, .str "结果A"))] "act"
        ⟨none, "一个子任务", none⟩
        (([⟨"查询", "call-1", "echo_tool", .null, fun vars => vars,
          .str "结果A"⟩] : List PreTurn).map preTurnToTurn ++
          [returnTurn "call-2" "" .null]) [] =
      .ok (.str (resultContentText
        (([⟨"查询", "call-1", "echo_tool", .null, fun vars => vars,
          .str "结果A"⟩] : List PreTurn).getLast (by simp)).result)) := by
  have htools : ∀ p ∈ ([⟨"查询", "call-1", "echo_tool", .null,
      fun vars => vars, .str "结果A"⟩] : List PreTurn),
      p.tcName ≠ "return_output" ∧
      ∃ fn, mapGet (mapSet
          [("echo_tool", fun vars _ => .ok (vars, .str "结果A"))]
          "return_output" (returnToolFn "act")) p.tcName = some fn ∧
        (∀ vars, fn vars p.tcInput = .ok (p.upd vars, p.result)) := by
    intro p hp
    simp only [List.mem_singleton] at hp
    subst hp
    exact ⟨by decide, ⟨fun vars _ => .ok (vars, .str "结果A"), rfl,
      fun vars => rfl⟩⟩
  refine ⟨by simp, by decide, by simp, ?_⟩
  exact c5_use_tool_result_returns_last none
    [("echo_tool", fun vars _ => .ok (vars, .str "结果A"))] "act"
    ⟨none, "一个子任务", none⟩ _ [] "call-2" "" .null (by simp) (by decide)
    (by simp) htools

/-! ### C7: a thrown tool error is caught and the loop continues -/

/-- C7.  A tool whose `execute` throws (for a reason other than
cancellation, which is modelled as absent here) never turns into a
round-loop exception: the round resolves `.ok`, with `hasToolUse` set,
the error converted into an `is_error` tool-result message whose text
carries the error message, and the variables and recorded tool results
untouched.  Moreover the loop continues: with a `return_output` round
scripted next, the whole `execute` still terminates with that round's
value, and the error-flagged message is part of the conversation the
next LLM turn sees. -/
theorem c7_tool_error_is_caught (text : String) (tc : ToolCall)
    (fn : ToolFn) (emsg : String) (vars : Vars)
    (hfn : fn vars tc.input = .error emsg) :
    (∀ (tm : List (String × ToolFn)) (msgs : List Message)
       (trs : ToolResults), mapGet tm tc.name = some fn →
       executeSingleRound tm (some ⟨text, some tc⟩) msgs vars trs =
         .ok ⟨some ⟨text, [tc]⟩, true,
           assistantTextMessages text ++
             [⟨.assistant, .items [.toolUse tc.id tc.name tc.input]⟩,
              ⟨.user, .items [.toolResult tc.id [.text ("错误：" ++ emsg)]
                true]⟩],
           vars, trs, handleHistoryImageMessages msgs⟩) ∧
    (∀ (cfg : Option Nat) (tools : List (String × ToolFn))
       (actionName : String) (ctx : ActionCtx) (rid rtext : String)
       (vret : JVal),
       tc.name ≠ "return_output" →
       mapGet (mapSet tools "return_output" (returnToolFn actionName))
         tc.name = some fn →
       2 ≤ maxRoundsOf cfg →
       ∃ sF, runRounds
           (mapSet tools "return_output" (returnToolFn actionName))
           [("return_output", returnToolFn actionName)] (maxRoundsOf cfg)
           ⟨vars, [], [⟨.system, .str formatSystemPrompt⟩,
             ⟨.user, .str (formatUserPrompt actionName ctx vars)⟩],
             [⟨text, some tc⟩, returnValueTurn rid rtext vret], 0⟩ =
           .ok sF ∧
         (⟨.user, .items [.toolResult tc.id [.text ("错误：" ++ emsg)]
           true]⟩ : Message) ∈ sF.messages ∧
         executeAction cfg tools actionName ctx
           [⟨text, some tc⟩, returnValueTurn rid rtext vret] vars =
           .ok vret) := by
  constructor
  · intro tm msgs trs hmap
    exact executeSingleRound_toolErr tm text tc fn emsg msgs vars trs
      hmap hfn
  · intro cfg tools actionName ctx rid rtext vret hname hmapB hmr
    obtain ⟨k, hmrk⟩ : ∃ k, maxRoundsOf cfg = k + 1 + 1 :=
      ⟨maxRoundsOf cfg - 2, by omega⟩
    set tmB := mapSet tools "return_output" (returnToolFn actionName)
      with htmB
    set msgs0 : List Message := [⟨.system, .str formatSystemPrompt⟩,
      ⟨.user, .str (formatUserPrompt actionName ctx vars)⟩] with hmsgs0
    set errMsg : Message :=
      ⟨.user, .items [.toolResult tc.id [.text ("错误：" ++ emsg)] true]⟩
      with herrMsg
    set s0 : LoopState := ⟨vars, [], msgs0,
      [⟨text, some tc⟩, returnValueTurn rid rtext vret], 0⟩ with hs0
    have hround1 := executeSingleRound_toolErr tmB text tc fn emsg
      msgs0 vars [] hmapB hfn
    have hhead0 : s0.script.head? = some ⟨text, some tc⟩ := rfl
    rw [← hhead0] at hround1
    have hstep1 := runRounds_continue tmB
      [("return_output", returnToolFn actionName)] (k + 1) s0 _ hround1
      rfl (by
        show hasReturnCall (some ⟨text, [tc]⟩) = false
        exact hasReturnCall_other text tc.id tc.name tc.input hname)
      (by omega)
    set s1 : LoopState := applyRound { s0 with rounds := s0.rounds + 1 }
      ⟨some ⟨text, [tc]⟩, true,
        assistantTextMessages text ++
          [⟨.assistant, .items [.toolUse tc.id tc.name tc.input]⟩, errMsg],
        vars, [], handleHistoryImageMessages msgs0⟩ with hs1
    have hround2 := executeSingleRound_toolOk tmB rtext
      ⟨rid, "return_output",
        .obj [("use_tool_result", .bool false), ("value", vret)]⟩
      (returnToolFn actionName)
      (mapSet vars (outputKeyOf actionName)
        (.obj [("use_tool_result", .bool false), ("value", vret)]))
      (.obj [("success", .bool true)]) s1.messages s1.vars s1.toolResults
      (by rw [htmB]; exact mapGet_mapSet_self _ _ _)
      (by show returnToolFn actionName s1.vars _ = _
          rfl)
    have hhead1 : s1.script.head? = some ⟨rtext, some ⟨rid, "return_output",
        .obj [("use_tool_result", .bool false), ("value", vret)]⟩⟩ := rfl
    rw [← hhead1] at hround2
    have hstep2 := runRounds_break tmB
      [("return_output", returnToolFn actionName)] k s1 _ hround2 rfl
      (hasReturnCall_return rtext rid _)
    have hrun : runRounds tmB [("return_output", returnToolFn actionName)]
        (maxRoundsOf cfg) s0 = .ok (applyRound
          { s1 with rounds := s1.rounds + 1 }
          ⟨some ⟨rtext, [⟨rid, "return_output",
            .obj [("use_tool_result", .bool false), ("value", vret)]⟩]⟩,
            true,
            assistantTextMessages rtext ++
              [⟨.assistant, .items [.toolUse rid "return_output"
                (.obj [("use_tool_result", .bool false), ("value", vret)])]⟩,
               ⟨.user, .items [.toolResult rid
                 (resultContentBlocks (.obj [("success", .bool true)]))
                 false]⟩],
            mapSet vars (outputKeyOf actionName)
              (.obj [("use_tool_result", .bool false), ("value", vret)]),
            s1.toolResults, handleHistoryImageMessages s1.messages⟩) := by
      rw [hmrk, hstep1]
      exact hstep2
    refine ⟨_, hrun, ?_, ?_⟩
    · show errMsg ∈ _
      simp only [applyRound]
      apply List.mem_append_left
      have hdecomp : s1.messages =
          (handleHistoryImageMessages msgs0 ++
            assistantTextMessages text ++
            [⟨.assistant, .items [.toolUse tc.id tc.name tc.input]⟩]) ++
          errMsg :: [] := by
        simp [hs1, applyRound]
      rw [hdecomp, handleHistory_decomp _ [] errMsg rfl (by simp)]
      apply List.mem_append_right
      exact List.mem_cons_self _ _
    · unfold executeAction
      dsimp only
      rw [hrun]
      have hres : resolveOutput actionName
          (mapSet vars (outputKeyOf actionName)
            (.obj [("use_tool_result", .bool false), ("value", vret)]))
          s1.toolResults =
          .ok (mapDelete (mapSet vars (outputKeyOf actionName)
            (.obj [("use_tool_result", .bool false), ("value", vret)]))
            (outputKeyOf actionName), vret) := by
        unfold resolveOutput
        dsimp only
        rw [mapGet_mapSet_self]
        dsimp only
        rw [show jtruthyOpt (jGet (JVal.obj
          [("use_tool_result", JVal.bool false), ("value", vret)])
          "use_tool_result") = false from rfl]
        rw [if_neg (by simp)]
        rw [show jGet (JVal.obj [("use_tool_result", JVal.bool false),
          ("value", vret)]) "value" = some vret from rfl]
      dsimp only [applyRound]
      rw [hres]
      rfl

/-- Witness for C7: a tool that throws `"工具爆炸"`, followed by a
`return_output` with an explicit value; the round resolves `.ok` with
the error-flagged message, and the run still terminates with the value. -/
theorem c7_tool_error_is_caught_witness :
    ((fun _ _ => Except.error "工具爆炸" : ToolFn) [] JVal.null =
      .error "工具爆炸") ∧
    executeSingleRound [("bad_tool", (fun _ _ => Except.error "工具爆炸" : ToolFn))]
        (some ⟨"试一下", some ⟨"call-1", "bad_tool", .null⟩⟩) [] [] [] =
      .ok ⟨some ⟨"试一下", [⟨"call-1", "bad_tool", .null⟩]⟩, true,
        assistantTextMessages "试一下" ++
          [⟨.assistant, .items [.toolUse "call-1" "bad_tool" .null]⟩,
           ⟨.user, .items [.toolResult "call-1" [.text ("错误：" ++ "工具爆炸")]
             true]⟩],
        [], [], handleHistoryImageMessages []⟩ ∧
    (∃ sF, runRounds
        (mapSet [("bad_tool", (fun _ _ => Except.error "工具爆炸" : ToolFn))]
          "return_output" (returnToolFn "act"))
        [("return_output", returnToolFn "act")] (maxRoundsOf none)
        ⟨[], [], [⟨.system, .str formatSystemPrompt⟩,
          ⟨.user, .str (formatUserPrompt "act" ⟨none, "一个子任务", none⟩ [])⟩],
          [⟨"试一下", some ⟨"call-1", "bad_tool", .null⟩⟩,
           returnValueTurn "call-2" "" (.str "最终值")], 0⟩ = .ok sF ∧
      (⟨.user, .items [.toolResult "call-1" [.text ("错误：" ++ "工具爆炸")]
        true]⟩ : Message) ∈ sF.messages ∧
      executeAction none
        [("bad_tool", (fun _ _ => Except.error "工具爆炸" : ToolFn))] "act"
        ⟨none, "一个子任务", none⟩
        [⟨"试一下", some ⟨"call-1", "bad_tool", .null⟩⟩,
         returnValueTurn "call-2" "" (.str "最终值")] [] =
        .ok (.str "最终值")) := by
  have h := c7_tool_error_is_caught "试一下" ⟨"call-1", "bad_tool", .null⟩
    (fun _ _ => Except.error "工具爆炸" : ToolFn) "工具爆炸" [] rfl
  exact ⟨rfl, h.1 [("bad_tool", (fun _ _ => Except.error "工具爆炸" : ToolFn))]
      [] [] rfl,
    h.2 none [("bad_tool", (fun _ _ => Except.error "工具爆炸" : ToolFn))]
      "act" ⟨none, "一个子任务", none⟩ "call-2" "" (.str "最终值")
      (by decide) rfl (by decide)⟩

/-! ### Workflow execution lemmas -/

/-- A successful (possibly skipping) `executeNode`/`execDeps` run only
pushes fresh entries onto the `executing` set: the original stack is a
suffix of the final one, and everything newly left on it was not
executing before. -/
theorem execExecutingSuffix (nodes : List WorkflowNode)
    (act : String → List (Option Nat) → Nat) (skip : String → Bool) :
    ∀ fuel : Nat,
      (∀ id s s', executeNode nodes act skip fuel id s = (s', .ok ()) →
        ∃ F, s'.executing = F ++ s.executing ∧ ∀ x ∈ F, x ∉ s.executing) ∧
      (∀ ds s s', execDeps nodes act skip fuel ds s = (s', .ok ()) →
        ∃ F, s'.executing = F ++ s.executing ∧ ∀ x ∈ F, x ∉ s.executing) := by
  have hdepsHalf : ∀ fuel : Nat,
      (∀ id s s', executeNode nodes act skip fuel id s = (s', .ok ()) →
        ∃ F, s'.executing = F ++ s.executing ∧ ∀ x ∈ F, x ∉ s.executing) →
      (∀ ds s s', execDeps nodes act skip fuel ds s = (s', .ok ()) →
        ∃ F, s'.executing = F ++ s.executing ∧ ∀ x ∈ F, x ∉ s.executing) := by
    intro fuel hN ds
    induction ds with
    | nil =>
      intro s s' h
      rw [execDeps] at h
      cases h
      exact ⟨[], rfl, by simp⟩
    | cons d ds ihl =>
      intro s s' h
      rw [execDeps] at h
      cases hstep : executeNode nodes act skip fuel d s with
      | mk s1 st =>
        rw [hstep] at h
        cases st with
        | ok u =>
          dsimp only at h
          obtain ⟨F1, hF1, hfresh1⟩ := hN d _ _ hstep
          obtain ⟨F2, hF2, hfresh2⟩ := ihl _ _ h
          refine ⟨F2 ++ F1, by rw [hF2, hF1, List.append_assoc], ?_⟩
          intro x hx
          rcases List.mem_append.mp hx with hx | hx
          · have := hfresh2 x hx
            rw [hF1] at this
            simp only [List.mem_append] at this
            exact fun hc => this (Or.inr hc)
          · exact hfresh1 x hx
        | error e =>
          simp at h
  intro fuel
  induction fuel with
  | zero =>
    have hN : ∀ id s s', executeNode nodes act skip 0 id s = (s', .ok ()) →
        ∃ F, s'.executing = F ++ s.executing ∧ ∀ x ∈ F, x ∉ s.executing := by
      intro id s s' h
      rw [executeNode] at h
      simp at h
    exact ⟨hN, hdepsHalf 0 hN⟩
  | succ fuel ih =>
    obtain ⟨ihN, ihD⟩ := ih
    have hN : ∀ id s s',
        executeNode nodes act skip (fuel + 1) id s = (s', .ok ()) →
        ∃ F, s'.executing = F ++ s.executing ∧ ∀ x ∈ F, x ∉ s.executing := by
      intro id s s' h
      rw [executeNode] at h
      split at h
      · cases h
        exact ⟨[], rfl, by simp⟩
      · split at h
        · simp at h
        · split at h
          · simp at h
          · rename_i hni hnx node hg
            dsimp only at h
            split at h
            · simp at h
            · rename_i s2 u hd
              split at h
              · simp at h
              · rename_i inp hc
                obtain ⟨F, hF, hfresh⟩ := ihD node.dependencies _ _ hd
                simp only at hF
                split at h
                · cases h
                  refine ⟨F ++ [id], by rw [hF]; simp, ?_⟩
                  intro x hx
                  rcases List.mem_append.mp hx with hx | hx
                  · have := hfresh x hx
                    simp at this
                    exact this.2
                  · simp at hx
                    subst hx
                    exact hni
                · cases h
                  have hidF : id ∉ F := by
                    intro hmem
                    have := hfresh id hmem
                    simp at this
                  refine ⟨F, ?_, ?_⟩
                  · show (s2.executing.erase id) = F ++ s.executing
                    rw [hF, List.erase_append_right _ hidF,
                      List.erase_cons_head]
                  · intro x hx
                    have := hfresh x hx
                    simp at this
                    exact this.2
    exact ⟨hN, hdepsHalf (fuel + 1) hN⟩

/-- While a node `t` sits on the `executing` stack, no successful
`executeNode`/`execDeps` run can add it to `executed` (any attempt to
enter it again errors out instead). -/
theorem execExecutedPreserved (nodes : List WorkflowNode)
    (act : String → List (Option Nat) → Nat) (skip : String → Bool) :
    ∀ fuel : Nat,
      (∀ id s s' t, executeNode nodes act skip fuel id s = (s', .ok ()) →
        t ∈ s.executing → t ∉ s.executed → t ∉ s'.executed) ∧
      (∀ ds s s' t, execDeps nodes act skip fuel ds s = (s', .ok ()) →
        t ∈ s.executing → t ∉ s.executed → t ∉ s'.executed) := by
  have hdepsHalf : ∀ fuel : Nat,
      (∀ id s s' t, executeNode nodes act skip fuel id s = (s', .ok ()) →
        t ∈ s.executing → t ∉ s.executed → t ∉ s'.executed) →
      (∀ ds s s' t, execDeps nodes act skip fuel ds s = (s', .ok ()) →
        t ∈ s.executing → t ∉ s.executed → t ∉ s'.executed) := by
    intro fuel hN ds
    induction ds with
    | nil =>
      intro s s' t h ht hte
      rw [execDeps] at h
      cases h
      exact hte
    | cons d ds ihl =>
      intro s s' t h ht hte
      rw [execDeps] at h
      cases hstep : executeNode nodes act skip fuel d s with
      | mk s1 st =>
        rw [hstep] at h
        cases st with
        | ok u =>
          dsimp only at h
          obtain ⟨F1, hF1, -⟩ :=
            (execExecutingSuffix nodes act skip fuel).1 d _ _ hstep
          have ht1 : t ∈ s1.executing := by
            rw [hF1]
            exact List.mem_append_right _ ht
          exact ihl _ _ t h ht1 (hN d _ _ t hstep ht hte)
        | error e =>
          simp at h
  intro fuel
  induction fuel with
  | zero =>
    have hN : ∀ id s s' t,
        executeNode nodes act skip 0 id s = (s', .ok ()) →
        t ∈ s.executing → t ∉ s.executed → t ∉ s'.executed := by
      intro id s s' t h
      rw [executeNode] at h
      simp at h
    exact ⟨hN, hdepsHalf 0 hN⟩
  | succ fuel ih =>
    obtain ⟨ihN, ihD⟩ := ih
    have hN : ∀ id s s' t,
        executeNode nodes act skip (fuel + 1) id s = (s', .ok ()) →
        t ∈ s.executing → t ∉ s.executed → t ∉ s'.executed := by
      intro id s s' t h ht hte
      rw [executeNode] at h
      by_cases h1 : id ∈ s.executed
      · rw [if_pos h1] at h
        cases h
        exact hte
      · rw [if_neg h1] at h
        by_cases h2 : id ∈ s.executing
        · rw [if_pos h2] at h
          simp at h
        · rw [if_neg h2] at h
          cases hg : getNode nodes id with
          | error e =>
            rw [hg] at h
            simp at h
          | ok node =>
            rw [hg] at h
            dsimp only at h
            cases hd : execDeps nodes act skip fuel node.dependencies
                { s with executing := id :: s.executing } with
            | mk s2 st =>
              rw [hd] at h
              cases st with
              | error e => simp at h
              | ok u =>
                dsimp only at h
                have hid : id ≠ t := fun hc2 => h2 (hc2 ▸ ht)
                have ht1 : t ∈ ({ s with
                    executing := id :: s.executing } : WfState).executing :=
                  List.mem_cons_of_mem _ ht
                have hte2 : t ∉ s2.executed :=
                  ihD node.dependencies _ _ t hd ht1 hte
                split at h
                · simp at h
                · split at h
                  · cases h
                    exact hte2
                  · cases h
                    show t ∉ id :: s2.executed
                    intro hmem
                    rcases List.mem_cons.mp hmem with hmem | hmem
                    · exact hid hmem.symm
                    · exact hte2 hmem
    exact ⟨hN, hdepsHalf (fuel + 1) hN⟩

/-! ### C9: a skipped node is stuck in `executing` -/

/-- C9.  When `beforeSubtask` skips node `N` (the `context.__skip`
path), `executeNode` returns without ever removing `N` from the
`executing` set and without marking it executed; any second invocation
of `executeNode` for `N` in the same run — for instance from another
terminal branch sharing `N` — therefore throws the cyclic-dependency
error for `N` instead of skipping or executing it. -/
theorem c9_skip_leaves_executing (nodes : List WorkflowNode)
    (act : String → List (Option Nat) → Nat) (skip : String → Bool)
    (fuel : Nat) (id : String) (s s' : WfState)
    (hskip : skip id = true)
    (hnx : id ∉ s.executed) (hni : id ∉ s.executing)
    (hrun : executeNode nodes act skip fuel id s = (s', .ok ())) :
    id ∈ s'.executing ∧ id ∉ s'.executed ∧
    ∀ fuel', executeNode nodes act skip (fuel' + 1) id s' =
      (s', .error (.cyclicDependency id)) := by
  cases fuel with
  | zero =>
    rw [executeNode] at hrun
    simp at hrun
  | succ fuel =>
    rw [executeNode] at hrun
    rw [if_neg hnx, if_neg hni] at hrun
    cases hg : getNode nodes id with
    | error e =>
      rw [hg] at hrun
      simp at hrun
    | ok node =>
      rw [hg] at hrun
      dsimp only at hrun
      cases hd : execDeps nodes act skip fuel node.dependencies
          { s with executing := id :: s.executing } with
      | mk s2 st =>
        rw [hd] at hrun
        cases st with
        | error e => simp at hrun
        | ok u =>
          dsimp only at hrun
          split at hrun
          · simp at hrun
          · rw [if_pos hskip] at hrun
            cases hrun
            obtain ⟨F, hF, -⟩ :=
              (execExecutingSuffix nodes act skip fuel).2
                node.dependencies _ _ hd
            have hin : id ∈ s'.executing := by
              rw [hF]
              exact List.mem_append_right _ (List.mem_cons_self _ _)
            have hout : id ∉ s'.executed :=
              (execExecutedPreserved nodes act skip fuel).2
                node.dependencies _ _ id hd (List.mem_cons_self _ _) hnx
            refine ⟨hin, hout, ?_⟩
            intro fuel'
            rw [executeNode]
            rw [if_neg hout, if_pos hin]

/-- Witness for C9: a one-node workflow whose only node `N` is skipped;
after the skipping run, `N` is still `executing`, not `executed`, and a
second invocation throws the cyclic-dependency error for `N`. -/
theorem c9_skip_leaves_executing_witness :
    ((fun x => x == "N") "N" = true) ∧
    ("N" ∉ initWfState.executed) ∧ ("N" ∉ initWfState.executing) ∧
    executeNode [⟨"N", []⟩] (fun _ _ => 0) (fun x => x == "N") 2 "N"
      initWfState = (⟨[], ["N"], [], []⟩, .ok ()) ∧
    ("N" ∈ (⟨[], ["N"], [], []⟩ : WfState).executing) ∧
    ("N" ∉ (⟨[], ["N"], [], []⟩ : WfState).executed) ∧
    executeNode [⟨"N", []⟩] (fun _ _ => 0) (fun x => x == "N") (0 + 1) "N"
      ⟨[], ["N"], [], []⟩ =
      (⟨[], ["N"], [], []⟩, .error (.cyclicDependency "N")) := by
  have hrun : executeNode [⟨"N", []⟩] (fun _ _ => 0) (fun x => x == "N") 2
      "N" initWfState = (⟨[], ["N"], [], []⟩, .ok ()) := by
    simp [executeNode, execDeps, getNode, collectInputs, initWfState,
      List.mapM, List.mapM.loop, pure, Except.pure]
  have h := c9_skip_leaves_executing [⟨"N", []⟩] (fun _ _ => 0)
    (fun x => x == "N") 2 "N" initWfState ⟨[], ["N"], [], []⟩ rfl
    (by simp [initWfState]) (by simp [initWfState]) hrun
  exact ⟨rfl, by simp [initWfState], by simp [initWfState], hrun, h.1,
    h.2.1, h.2.2 0⟩

/-! ### Soundness of `validateDAG` -/

theorem dfsPost_trans (nodes : List WorkflowNode) {s s1 s2 : DfsState}
    (h1 : DfsPost nodes s s1) (h2 : DfsPost nodes s1 s2) :
    DfsPost nodes s s2 :=
  ⟨h2.1, by rw [h2.2.1, h1.2.1], h1.2.2.1.trans h2.2.2.1,
    fun x hx => h2.2.2.2 x (h1.2.2.2 x hx)⟩

theorem dfsBlack_reflTransGen (nodes : List WorkflowNode) (s : DfsState)
    (hclo : ∀ x, dfsBlack s x → ∀ y, Edge nodes x y → dfsBlack s y)
    {a b : String} (hab : Relation.ReflTransGen (Edge nodes) a b)
    (ha : dfsBlack s a) : dfsBlack s b := by
  induction hab with
  | refl => exact ha
  | tail hrt hedge ih => exact hclo _ ih _ hedge

theorem edge_dep_of_getNode (nodes : List WorkflowNode) (id y : String)
    (node : WorkflowNode) (hgn : getNode nodes id = .ok node)
    (hedge : Edge nodes id y) : y ∈ node.dependencies := by
  obtain ⟨n, hn, hy⟩ := hedge
  rw [hgn] at hn
  cases hn
  exact hy

/-- The invariant-carrying postcondition of every `hasCycle` /
`hasCycleDeps` call that comes back `false`. -/
theorem hasCycleFalseInv (nodes : List WorkflowNode) :
    ∀ fuel : Nat,
      (∀ id s s', hasCycle nodes fuel id s = .ok (false, s') →
        DfsGood nodes s → DfsPost nodes s s' ∧ dfsBlack s' id) ∧
      (∀ ds s s', hasCycleDeps nodes fuel ds s = .ok (false, s') →
        DfsGood nodes s → DfsPost nodes s s' ∧ ∀ d ∈ ds, dfsBlack s' d) := by
  have hdepsHalf : ∀ fuel : Nat,
      (∀ id s s', hasCycle nodes fuel id s = .ok (false, s') →
        DfsGood nodes s → DfsPost nodes s s' ∧ dfsBlack s' id) →
      (∀ ds s s', hasCycleDeps nodes fuel ds s = .ok (false, s') →
        DfsGood nodes s → DfsPost nodes s s' ∧ ∀ d ∈ ds, dfsBlack s' d) := by
    intro fuel hN ds
    induction ds with
    | nil =>
      intro s s' h hg
      rw [hasCycleDeps] at h
      cases h
      exact ⟨⟨hg, rfl, fun x hx => hx, fun x hx => hx⟩, by simp⟩
    | cons d ds ihl =>
      intro s s' h hg
      rw [hasCycleDeps] at h
      cases hstep : hasCycle nodes fuel d s with
      | error e =>
        rw [hstep] at h
        simp at h
      | ok pair =>
        obtain ⟨b1, s1⟩ := pair
        rw [hstep] at h
        cases b1 with
        | true =>
          dsimp only at h
          simp at h
        | false =>
          dsimp only at h
          obtain ⟨hp1, hb1⟩ := hN d s s1 hstep hg
          obtain ⟨hp2, hbs⟩ := ihl s1 s' h hp1.1
          refine ⟨dfsPost_trans nodes hp1 hp2, ?_⟩
          intro x hx
          rcases List.mem_cons.mp hx with rfl | hx
          · exact hp2.2.2.2 _ hb1
          · exact hbs x hx
  intro fuel
  induction fuel with
  | zero =>
    have hN : ∀ id s s', hasCycle nodes 0 id s = .ok (false, s') →
        DfsGood nodes s → DfsPost nodes s s' ∧ dfsBlack s' id := by
      intro id s s' h
      rw [hasCycle] at h
      simp at h
    exact ⟨hN, hdepsHalf 0 hN⟩
  | succ fuel ih =>
    obtain ⟨ihN, ihD⟩ := ih
    have hN : ∀ id s s', hasCycle nodes (fuel + 1) id s = .ok (false, s') →
        DfsGood nodes s → DfsPost nodes s s' ∧ dfsBlack s' id := by
      intro id s s' h hg
      rw [hasCycle] at h
      by_cases h1 : id ∈ s.recStack
      · rw [if_pos h1] at h
        simp at h
      · rw [if_neg h1] at h
        by_cases h2 : id ∈ s.visited
        · rw [if_pos h2] at h
          cases h
          exact ⟨⟨hg, rfl, fun x hx => hx, fun x hx => hx⟩, ⟨h2, h1⟩⟩
        · rw [if_neg h2] at h
          cases hgn : getNode nodes id with
          | error e =>
            rw [hgn] at h
            simp at h
          | ok node =>
            rw [hgn] at h
            dsimp only at h
            cases hd : hasCycleDeps nodes fuel node.dependencies
                ⟨id :: s.visited, id :: s.recStack⟩ with
            | error e =>
              rw [hd] at h
              simp at h
            | ok pair =>
              obtain ⟨b2, s2⟩ := pair
              rw [hd] at h
              cases b2 with
              | true =>
                dsimp only at h
                simp at h
              | false =>
                dsimp only at h
                cases h
                have hgood1 : DfsGood nodes
                    ⟨id :: s.visited, id :: s.recStack⟩ := by
                  refine ⟨?_, ?_, ?_⟩
                  · intro x hx
                    rcases List.mem_cons.mp hx with rfl | hx
                    · exact List.mem_cons_self _ _
                    · exact List.mem_cons_of_mem _ (hg.1 x hx)
                  · intro x hx y hxy
                    have hxne : x ≠ id := fun hc => hx.2
                      (hc ▸ List.mem_cons_self _ _)
                    have hxb : dfsBlack s x :=
                      ⟨(List.mem_cons.mp hx.1).resolve_left hxne,
                        fun hc => hx.2 (List.mem_cons_of_mem _ hc)⟩
                    have hyb := hg.2.1 x hxb y hxy
                    have hyne : y ≠ id := fun hc => h2 (hc ▸ hyb.1)
                    refine ⟨List.mem_cons_of_mem _ hyb.1, ?_⟩
                    intro hc
                    rcases List.mem_cons.mp hc with hc | hc
                    · exact hyne hc
                    · exact hyb.2 hc
                  · intro x hx
                    have hxne : x ≠ id := fun hc => hx.2
                      (hc ▸ List.mem_cons_self _ _)
                    have hxb : dfsBlack s x :=
                      ⟨(List.mem_cons.mp hx.1).resolve_left hxne,
                        fun hc => hx.2 (List.mem_cons_of_mem _ hc)⟩
                    exact hg.2.2 x hxb
                obtain ⟨hp, hdblack⟩ :=
                  ihD node.dependencies _ _ hd hgood1
                have hrec : s2.recStack = id :: s.recStack := hp.2.1
                have herase : s2.recStack.erase id = s.recStack := by
                  rw [hrec, List.erase_cons_head]
                have hvis : s.visited ⊆ s2.visited :=
                  fun x hx => hp.2.2.1 (List.mem_cons_of_mem _ hx)
                have hidvis : id ∈ s2.visited :=
                  hp.2.2.1 (List.mem_cons_self _ _)
                have blackUp : ∀ x, dfsBlack s2 x →
                    dfsBlack (⟨s2.visited, s2.recStack.erase id⟩ : DfsState) x := by
                  intro x hx
                  refine ⟨hx.1, ?_⟩
                  show x ∉ s2.recStack.erase id
                  rw [herase]
                  intro hc
                  exact hx.2 (by rw [hrec]; exact List.mem_cons_of_mem _ hc)
                have blackRel : ∀ x,
                    dfsBlack (⟨s2.visited, s2.recStack.erase id⟩ : DfsState) x →
                    dfsBlack s2 x ∨ x = id := by
                  intro x hx
                  by_cases hxe : x = id
                  · exact Or.inr hxe
                  · left
                    refine ⟨hx.1, ?_⟩
                    rw [hrec]
                    intro hc
                    rcases List.mem_cons.mp hc with hc | hc
                    · exact hxe hc
                    · exact hx.2 (by rw [herase] at *; exact hc)
                have hblackid :
                    dfsBlack (⟨s2.visited, s2.recStack.erase id⟩ : DfsState)
                      id := by
                  refine ⟨hidvis, ?_⟩
                  show id ∉ s2.recStack.erase id
                  rw [herase]
                  exact h1
                have hgood' : DfsGood nodes
                    ⟨s2.visited, s2.recStack.erase id⟩ := by
                  refine ⟨?_, ?_, ?_⟩
                  · intro x hx
                    show x ∈ s2.visited
                    rw [herase] at hx
                    exact hvis (hg.1 x hx)
                  · intro x hx y hxy
                    rcases blackRel x hx with hxb | rfl
                    · exact blackUp y (hp.1.2.1 x hxb y hxy)
                    · have hy : y ∈ node.dependencies :=
                        edge_dep_of_getNode nodes x y node hgn hxy
                      exact blackUp y (hdblack y hy)
                  · intro x hx hcyc
                    rcases blackRel x hx with hxb | rfl
                    · exact hp.1.2.2 x hxb hcyc
                    · obtain ⟨b, hedge, hrt⟩ :=
                        Relation.TransGen.head'_iff.mp hcyc
                      have hb : b ∈ node.dependencies :=
                        edge_dep_of_getNode nodes x b node hgn hedge
                      have hbb : dfsBlack s2 b := hdblack b hb
                      have hxb2 : dfsBlack s2 x :=
                        dfsBlack_reflTransGen nodes s2 hp.1.2.1 hrt hbb
                      exact hxb2.2 (by rw [hrec]; exact List.mem_cons_self _ _)
                refine ⟨⟨hgood', herase, fun x hx => hvis hx, ?_⟩, hblackid⟩
                intro x hx
                refine ⟨hvis hx.1, ?_⟩
                show x ∉ s2.recStack.erase id
                rw [herase]
                exact hx.2
    exact ⟨hN, hdepsHalf (fuel + 1) hN⟩

/-- A `someHasCycle` scan that reports no cycle leaves every scanned
node id black, under a maintained invariant. -/
theorem someHasCycleFalse (nodes : List WorkflowNode) :
    ∀ (ns : List WorkflowNode) (s : DfsState),
      someHasCycle nodes ns s = .ok false → DfsGood nodes s →
      ∃ s', DfsGood nodes s' ∧ (∀ n ∈ ns, dfsBlack s' n.id) ∧
        (∀ x, dfsBlack s x → dfsBlack s' x) := by
  intro ns
  induction ns with
  | nil =>
    intro s h hg
    exact ⟨s, hg, by simp, fun x hx => hx⟩
  | cons n ns ih =>
    intro s h hg
    rw [someHasCycle] at h
    cases hstep : hasCycle nodes (nodes.length + 1) n.id s with
    | error e =>
      rw [hstep] at h
      simp at h
    | ok pair =>
      obtain ⟨b, s1⟩ := pair
      rw [hstep] at h
      cases b with
      | true =>
        dsimp only at h
        simp at h
      | false =>
        dsimp only at h
        obtain ⟨hp, hb⟩ := (hasCycleFalseInv nodes (nodes.length + 1)).1
          n.id s s1 hstep hg
        obtain ⟨s', hg', hall, hmono⟩ := ih s1 h hp.1
        refine ⟨s', hg', ?_, fun x hx => hmono x (hp.2.2.2 x hx)⟩
        intro m hm
        rcases List.mem_cons.mp hm with rfl | hm
        · exact hmono _ hb
        · exact hall m hm

/-- Soundness of the DFS: `validateDAG = ok true` means the dependency
graph has no cycle at all. -/
theorem validateDAG_sound (nodes : List WorkflowNode)
    (h : validateDAG nodes = .ok true) :
    ∀ a, ¬ Relation.TransGen (Edge nodes) a a := by
  intro a hcyc
  have hsome : someHasCycle nodes nodes ⟨[], []⟩ = .ok false := by
    unfold validateDAG at h
    cases hs : someHasCycle nodes nodes ⟨[], []⟩ with
    | error e =>
      rw [hs] at h
      simp at h
    | ok b =>
      rw [hs] at h
      cases b with
      | true => simp at h
      | false => rfl
  have hginit : DfsGood nodes ⟨[], []⟩ := by
    refine ⟨?_, ?_, ?_⟩
    · intro x hx
      cases hx
    · intro x hx
      exact absurd hx.1 (by simp)
    · intro x hx
      exact absurd hx.1 (by simp)
  obtain ⟨s', hg', hall, -⟩ :=
    someHasCycleFalse nodes nodes ⟨[], []⟩ hsome hginit
  obtain ⟨b, hedge, -⟩ := Relation.TransGen.head'_iff.mp hcyc
  obtain ⟨n, hn, -⟩ := hedge
  have hfind : nodes.find? (fun m => m.id = a) = some n := by
    unfold getNode at hn
    cases hf : nodes.find? (fun m => m.id = a) with
    | none =>
      rw [hf] at hn
      simp at hn
    | some m =>
      rw [hf] at hn
      cases hn
      rfl
  have hna : n.id = a := by
    have := List.find?_some hfind
    simpa using this
  have hmem : n ∈ nodes := List.mem_of_find?_eq_some hfind
  have hblack : dfsBlack s' a := hna ▸ hall n hmem
  exact hg'.2.2 a hblack hcyc

/-! ### Totality of `validateDAG` on well-formed workflows -/

theorem dfsWhites_le (nodes : List WorkflowNode) (s : DfsState) :
    dfsWhites nodes s ≤ nodes.length := by
  unfold dfsWhites
  calc (((nodes.map (fun n => n.id)).dedup).filter
      (fun x => decide (x ∉ s.visited))).length
      ≤ ((nodes.map (fun n => n.id)).dedup).length :=
        List.length_filter_le _ _
    _ ≤ (nodes.map (fun n => n.id)).length := (List.Sublist.length_le
        (List.dedup_sublist _))
    _ = nodes.length := List.length_map _ _

theorem dfsWhites_anti (nodes : List WorkflowNode) (s s' : DfsState)
    (h : s.visited ⊆ s'.visited) : dfsWhites nodes s' ≤ dfsWhites nodes s := by
  unfold dfsWhites
  rw [← List.countP_eq_length_filter, ← List.countP_eq_length_filter]
  apply List.countP_mono_left
  intro x hx hpx
  simp only [decide_eq_true_eq] at hpx ⊢
  exact fun hc => hpx (h hc)

theorem length_filter_ne_lt {l : List String} {a : String} (ha : a ∈ l) :
    (l.filter (fun x => decide (x ≠ a))).length < l.length := by
  induction l with
  | nil => cases ha
  | cons b t ih =>
    by_cases hb : b = a
    · simp only [List.filter_cons]
      rw [show (decide (b ≠ a)) = false by simp [hb]]
      exact lt_of_le_of_lt (List.length_filter_le _ _) (by simp)
    · have ha' : a ∈ t := by
        rcases List.mem_cons.mp ha with h | h
        · exact absurd h.symm hb
        · exact h
      simp only [List.filter_cons]
      rw [show (decide (b ≠ a)) = true by simp [hb]]
      simpa using ih ha'

theorem dfsWhites_strict (nodes : List WorkflowNode) (s : DfsState)
    (id : String) (hid : id ∈ nodes.map (fun n => n.id))
    (hnv : id ∉ s.visited) (R : List String) :
    dfsWhites nodes ⟨id :: s.visited, R⟩ < dfsWhites nodes s := by
  unfold dfsWhites
  have hsplit : ∀ x : String,
      (decide (x ∉ (id :: s.visited)) : Bool) =
      (decide (x ≠ id) && decide (x ∉ s.visited)) := by
    intro x
    by_cases h1 : x = id
    · subst h1
      simp
    · by_cases h2 : x ∈ s.visited <;> simp [h1, h2]
  rw [List.filter_congr (fun x _ => hsplit x)]
  rw [← List.filter_filter]
  apply length_filter_ne_lt
  rw [List.mem_filter]
  exact ⟨List.mem_dedup.mpr hid, by simpa using hnv⟩

theorem getNode_of_mem_ids (nodes : List WorkflowNode) (id : String)
    (hid : id ∈ nodes.map (fun n => n.id)) :
    ∃ node, getNode nodes id = .ok node ∧ node ∈ nodes := by
  obtain ⟨n, hn, hid'⟩ := List.mem_map.mp hid
  have hsome : (nodes.find? (fun m => m.id = id)).isSome := by
    rw [List.find?_isSome]
    exact ⟨n, hn, by simp [hid']⟩
  cases hf : nodes.find? (fun m => m.id = id) with
  | none => rw [hf] at hsome; cases hsome
  | some m =>
    refine ⟨m, ?_, List.mem_of_find?_eq_some hf⟩
    unfold getNode
    rw [hf]

theorem wfDeps_spec (nodes : List WorkflowNode)
    (hwf : wfDeps nodes = true) (n : WorkflowNode) (hn : n ∈ nodes)
    (d : String) (hd : d ∈ n.dependencies) :
    d ∈ nodes.map (fun m => m.id) := by
  unfold wfDeps at hwf
  rw [List.all_eq_true] at hwf
  have := hwf n hn
  rw [List.all_eq_true] at this
  have := this d hd
  simp only [List.any_eq_true, decide_eq_true_eq] at this
  obtain ⟨m, hm, hmd⟩ := this
  exact List.mem_map.mpr ⟨m, hm, hmd⟩

/-- On a well-formed workflow the DFS never errors: with enough fuel it
always returns a boolean. -/
theorem hasCycleTotal (nodes : List WorkflowNode)
    (hwf : wfDeps nodes = true) :
    ∀ fuel : Nat,
      (∀ id s, id ∈ nodes.map (fun n => n.id) →
        dfsWhites nodes s < fuel →
        ∃ b s', hasCycle nodes fuel id s = .ok (b, s') ∧
          s.visited ⊆ s'.visited) ∧
      (∀ ds s, (∀ d ∈ ds, d ∈ nodes.map (fun n => n.id)) →
        dfsWhites nodes s < fuel →
        ∃ b s', hasCycleDeps nodes fuel ds s = .ok (b, s') ∧
          s.visited ⊆ s'.visited) := by
  have hdepsHalf : ∀ fuel : Nat,
      (∀ id s, id ∈ nodes.map (fun n => n.id) →
        dfsWhites nodes s < fuel →
        ∃ b s', hasCycle nodes fuel id s = .ok (b, s') ∧
          s.visited ⊆ s'.visited) →
      (∀ ds s, (∀ d ∈ ds, d ∈ nodes.map (fun n => n.id)) →
        dfsWhites nodes s < fuel →
        ∃ b s', hasCycleDeps nodes fuel ds s = .ok (b, s') ∧
          s.visited ⊆ s'.visited) := by
    intro fuel hN ds
    induction ds with
    | nil =>
      intro s hds hfuel
      exact ⟨false, s, by rw [hasCycleDeps], fun x hx => hx⟩
    | cons d ds ihl =>
      intro s hds hfuel
      obtain ⟨b1, s1, hstep, hvis1⟩ := hN d s (hds d (by simp)) hfuel
      cases b1 with
      | true =>
        refine ⟨true, s1, ?_, hvis1⟩
        rw [hasCycleDeps, hstep]
      | false =>
        have hfuel1 : dfsWhites nodes s1 < fuel :=
          lt_of_le_of_lt (dfsWhites_anti nodes s s1 hvis1) hfuel
        obtain ⟨b2, s2, hrest, hvis2⟩ :=
          ihl s1 (fun x hx => hds x (by simp [hx])) hfuel1
        refine ⟨b2, s2, ?_, hvis1.trans hvis2⟩
        rw [hasCycleDeps, hstep]
        exact hrest
  intro fuel
  induction fuel with
  | zero =>
    have hN : ∀ id s, id ∈ nodes.map (fun n => n.id) →
        dfsWhites nodes s < 0 →
        ∃ b s', hasCycle nodes 0 id s = .ok (b, s') ∧
          s.visited ⊆ s'.visited := by
      intro id s hid hfuel
      omega
    exact ⟨hN, hdepsHalf 0 hN⟩
  | succ fuel ih =>
    obtain ⟨ihN, ihD⟩ := ih
    have hN : ∀ id s, id ∈ nodes.map (fun n => n.id) →
        dfsWhites nodes s < fuel + 1 →
        ∃ b s', hasCycle nodes (fuel + 1) id s = .ok (b, s') ∧
          s.visited ⊆ s'.visited := by
      intro id s hid hfuel
      by_cases h1 : id ∈ s.recStack
      · exact ⟨true, s, by rw [hasCycle]; rw [if_pos h1], fun x hx => hx⟩
      · by_cases h2 : id ∈ s.visited
        · refine ⟨false, s, ?_, fun x hx => hx⟩
          rw [hasCycle]
          rw [if_neg h1, if_pos h2]
        · obtain ⟨node, hgn, hmem⟩ := getNode_of_mem_ids nodes id hid
          have hstrict : dfsWhites nodes
              ⟨id :: s.visited, id :: s.recStack⟩ < dfsWhites nodes s :=
            dfsWhites_strict nodes s id hid h2 _
          have hfuel1 : dfsWhites nodes
              ⟨id :: s.visited, id :: s.recStack⟩ < fuel := by
            omega
          obtain ⟨b2, s2, hd, hvis⟩ := ihD node.dependencies
            ⟨id :: s.visited, id :: s.recStack⟩
            (fun d hd => wfDeps_spec nodes hwf node hmem d hd) hfuel1
          have hvis' : s.visited ⊆ s2.visited := fun x hx =>
            hvis (List.mem_cons_of_mem _ hx)
          cases b2 with
          | true =>
            refine ⟨true, s2, ?_, hvis'⟩
            rw [hasCycle]
            rw [if_neg h1, if_neg h2, hgn]
            dsimp only
            rw [hd]
          | false =>
            refine ⟨false, ⟨s2.visited, s2.recStack.erase id⟩, ?_, hvis'⟩
            rw [hasCycle]
            rw [if_neg h1, if_neg h2, hgn]
            dsimp only
            rw [hd]
    exact ⟨hN, hdepsHalf (fuel + 1) hN⟩

/-- On a well-formed workflow `validateDAG` always returns a boolean. -/
theorem validateDAG_total (nodes : List WorkflowNode)
    (hwf : wfDeps nodes = true) : ∃ b, validateDAG nodes = .ok b := by
  have hsome : ∀ (ns : List WorkflowNode) (s : DfsState),
      (∀ n ∈ ns, n ∈ nodes) →
      ∃ b, someHasCycle nodes ns s = .ok b := by
    intro ns
    induction ns with
    | nil => exact fun s _ => ⟨false, by rw [someHasCycle]⟩
    | cons n ns ih =>
      intro s hns
      have hid : n.id ∈ nodes.map (fun m => m.id) :=
        List.mem_map.mpr ⟨n, hns n (by simp), rfl⟩
      have hfuel : dfsWhites nodes s < nodes.length + 1 :=
        lt_of_le_of_lt (dfsWhites_le nodes s) (by omega)
      obtain ⟨b, s', hstep, -⟩ :=
        (hasCycleTotal nodes hwf (nodes.length + 1)).1 n.id s hid hfuel
      cases b with
      | true => exact ⟨true, by rw [someHasCycle, hstep]⟩
      | false =>
        obtain ⟨b2, hrest⟩ := ih s' (fun m hm => hns m (by simp [hm]))
        refine ⟨b2, ?_⟩
        rw [someHasCycle, hstep]
        exact hrest
  obtain ⟨b, hb⟩ := hsome nodes ⟨[], []⟩ (fun n hn => hn)
  exact ⟨!b, by unfold validateDAG; rw [hb]⟩

/-! ### C3: cyclic workflows are rejected -/

/-- C3 (amended).  For a well-formed workflow — every declared
dependency resolves to an existing node — that contains a dependency
cycle, `validateDAG` returns `ok false`, and `execute` rejects with the
structural `工作流程无效` error while its execution state still carries
an empty action trace: no node action was invoked.  (Without the
well-formedness premise the claim fails: a dangling dependency
encountered before the cycle makes `validateDAG` throw `getNode`'s
not-found error instead of returning false, see the counterexample.) -/
theorem c3_cycle_invalidates_dag (nodes : List WorkflowNode) (a : String)
    (hwf : wfDeps nodes = true)
    (hcyc : Relation.TransGen (Edge nodes) a a) :
    validateDAG nodes = .ok false ∧
    ∀ (act : String → List (Option Nat) → Nat) (skip : String → Bool),
      executeWorkflow nodes act skip =
        (initWfState, .error .invalidWorkflow) ∧
      (executeWorkflow nodes act skip).1.trace = [] := by
  obtain ⟨b, hb⟩ := validateDAG_total nodes hwf
  have hbf : b = false := by
    cases b with
    | false => rfl
    | true => exact absurd hcyc (validateDAG_sound nodes hb a)
  subst hbf
  have hexec : ∀ (act : String → List (Option Nat) → Nat)
      (skip : String → Bool),
      executeWorkflow nodes act skip =
        (initWfState, .error .invalidWorkflow) := by
    intro act skip
    unfold executeWorkflow
    rw [hb]
  exact ⟨hb, fun act skip => ⟨hexec act skip, by rw [hexec act skip]; rfl⟩⟩

/-- Counterexample to C3 as literally stated: this workflow has a cycle
(`B` depends on itself), yet `validateDAG` does not return false — node
`A`'s dangling dependency `C` is scanned first and `getNode` throws its
not-found error, which `validateDAG` propagates. -/
theorem c3_counterexample_dangling_dep_masks_cycle :
    Relation.TransGen (Edge [⟨"A", ["C"]⟩, ⟨"B", ["B"]⟩]) "B" "B" ∧
    validateDAG [⟨"A", ["C"]⟩, ⟨"B", ["B"]⟩] =
      .error (.nodeNotFound "C") := by
  constructor
  · exact Relation.TransGen.single ⟨⟨"B", ["B"]⟩, by rfl, by simp⟩
  · simp [validateDAG, someHasCycle, hasCycle, hasCycleDeps, getNode,
      List.find?]

/-- Witness for C3 at the one-node self-cycle workflow. -/
theorem c3_cycle_invalidates_dag_witness :
    wfDeps [⟨"B", ["B"]⟩] = true ∧
    Relation.TransGen (Edge [⟨"B", ["B"]⟩]) "B" "B" ∧
    validateDAG [⟨"B", ["B"]⟩] = .ok false ∧
    executeWorkflow [⟨"B", ["B"]⟩] (fun _ _ => 0) (fun _ => false) =
      (initWfState, .error .invalidWorkflow) ∧
    (executeWorkflow [⟨"B", ["B"]⟩] (fun _ _ => 0)
      (fun _ => false)).1.trace = [] := by
  have hcyc : Relation.TransGen (Edge [⟨"B", ["B"]⟩]) "B" "B" :=
    Relation.TransGen.single ⟨⟨"B", ["B"]⟩, by rfl, by simp⟩
  have h := c3_cycle_invalidates_dag [⟨"B", ["B"]⟩] "B" (by decide) hcyc
  exact ⟨by decide, hcyc, h.1, (h.2 (fun _ _ => 0) (fun _ => false)).1,
    (h.2 (fun _ _ => 0) (fun _ => false)).2⟩

/-! ### C4: the diamond counterexample -/

/-- Counterexample to C4 as literally stated, under the cooperative
scheduling the code actually runs: for the acyclic diamond workflow
(`T1` and `T2` both depending on `A`), the `Promise.all` at action.ts
line 672 starts branch `T1` synchronously until it suspends inside
`A`'s `await node.action.execute(...)` — leaving `T1` and `A` marked
`executing` — and then starts branch `T2`, whose synchronous descent
hits `A` in the `executing` set and rejects with the cyclic-dependency
error (action.ts lines 606-608).  `execute()` therefore rejects on this
acyclic workflow and `T2`'s action is never invoked, refuting "runs
each node's action exactly once". -/
theorem c4_counterexample_shared_dep_across_branches :
    validateDAG [⟨"A", []⟩, ⟨"T1", ["A"]⟩, ⟨"T2", ["A"]⟩] = .ok true ∧
    (terminalNodes [⟨"A", []⟩, ⟨"T1", ["A"]⟩, ⟨"T2", ["A"]⟩]).map
      (fun n => n.id) = ["T1", "T2"] ∧
    (startAll [⟨"A", []⟩, ⟨"T1", ["A"]⟩, ⟨"T2", ["A"]⟩] (fun _ => false)
        ["T1", "T2"] initWfState).2 =
      [.paused "A", .errored (.cyclicDependency "A")] := by
  refine ⟨?_, by decide, ?_⟩
  · simp [validateDAG, someHasCycle, hasCycle, hasCycleDeps, getNode,
      List.find?]
  · simp [startAll, syncStart, syncStartDeps, getNode, collectInputs,
      initWfState, List.mapM, List.mapM.loop, pure, Except.pure,
      List.find?]

/-! ### C4 helper lemmas -/

theorem mapM_loop_ok (f : String → Except WErr (Option Nat))
    (g : String → Option Nat) :
    ∀ (l : List String) (acc : List (Option Nat)),
      (∀ a ∈ l, f a = .ok (g a)) →
      List.mapM.loop f l acc = .ok (acc.reverse ++ l.map g) := by
  intro l
  induction l with
  | nil =>
    intro acc h
    simp [List.mapM.loop, pure, Except.pure]
  | cons a l ih =>
    intro acc h
    rw [List.mapM.loop, h a (List.mem_cons_self a l)]
    show List.mapM.loop f l (g a :: acc) = _
    rw [ih (g a :: acc) (fun x hx => h x (List.mem_cons_of_mem a hx))]
    simp

theorem collectInputs_ok (nodes : List WorkflowNode) (s : WfState)
    (deps : List String)
    (hd : ∀ d ∈ deps, ∃ n, getNode nodes d = .ok n) :
    collectInputs nodes s deps =
      .ok (deps.map (fun d => mapGet s.outputs d)) := by
  unfold collectInputs
  have h := mapM_loop_ok
    (fun d => match getNode nodes d with
      | .error e => .error e
      | .ok _ => .ok (mapGet s.outputs d))
    (fun d => mapGet s.outputs d) deps []
    (by
      intro a ha
      obtain ⟨n, hn⟩ := hd a ha
      dsimp only
      rw [hn])
  simpa [List.mapM] using h

theorem getNode_self (nodes : List WorkflowNode)
    (hnd : (nodes.map (fun n => n.id)).Nodup) (m : WorkflowNode)
    (hm : m ∈ nodes) : getNode nodes m.id = .ok m := by
  have hfind : ∀ ns : List WorkflowNode, (ns.map (fun n => n.id)).Nodup →
      m ∈ ns → ns.find? (fun n => n.id = m.id) = some m := by
    intro ns
    induction ns with
    | nil =>
      intro _ h
      cases h
    | cons n rest ih =>
      intro hnd2 hm2
      rw [List.map_cons, List.nodup_cons] at hnd2
      rcases List.mem_cons.mp hm2 with rfl | hm3
      · rw [List.find?_cons_of_pos]
        simp
      · have hne : n.id ≠ m.id := by
          intro he
          refine hnd2.1 ?_
          rw [he]
          exact List.mem_map.mpr ⟨m, hm3, rfl⟩
        rw [List.find?_cons_of_neg]
        · exact ih hnd2.2 hm3
        · simp [hne]
  unfold getNode
  rw [hfind nodes hnd hm]

theorem getNode_ok_mem (nodes : List WorkflowNode) (id : String)
    (n : WorkflowNode) (h : getNode nodes id = .ok n) : n ∈ nodes := by
  unfold getNode at h
  cases hf : nodes.find? (fun m => m.id = id) with
  | none =>
    rw [hf] at h
    simp at h
  | some m =>
    rw [hf] at h
    cases h
    exact List.mem_of_find?_eq_some hf

theorem freshCount_le (nodes : List WorkflowNode) (l : List String) :
    freshCount nodes l ≤ nodes.length := by
  unfold freshCount
  calc (((nodes.map (fun n => n.id)).dedup).filter
      (fun x => decide (x ∉ l))).length
      ≤ ((nodes.map (fun n => n.id)).dedup).length :=
        List.length_filter_le _ _
    _ ≤ (nodes.map (fun n => n.id)).length := (List.Sublist.length_le
        (List.dedup_sublist _))
    _ = nodes.length := List.length_map _ _

theorem freshCount_strict (nodes : List WorkflowNode) (l : List String)
    (id : String) (hid : id ∈ nodes.map (fun n => n.id)) (hnl : id ∉ l) :
    freshCount nodes (id :: l) < freshCount nodes l := by
  unfold freshCount
  have hsplit : ∀ x : String,
      (decide (x ∉ (id :: l)) : Bool) =
      (decide (x ≠ id) && decide (x ∉ l)) := by
    intro x
    by_cases h1 : x = id
    · subst h1
      simp
    · by_cases h2 : x ∈ l <;> simp [h1, h2]
  rw [List.filter_congr (fun x _ => hsplit x)]
  rw [← List.filter_filter]
  apply length_filter_ne_lt
  rw [List.mem_filter]
  exact ⟨List.mem_dedup.mpr hid, by simpa using hnl⟩

theorem execInv_init (nodes : List WorkflowNode) :
    ExecInv nodes initWfState := by
  refine ⟨List.nodup_nil, ?_, ?_, ?_, ?_⟩
  · intro x
    simp [initWfState]
  · intro x
    simp [initWfState, mapGet]
  · intro x hx
    simp [initWfState] at hx
  · intro i hi
    simp [initWfState] at hi

theorem nodeRunOK_refl (nodes : List WorkflowNode) (s : WfState)
    (h : ExecInv nodes s) : NodeRunOK nodes s s :=
  ⟨h, rfl, fun _ hx => hx, fun _ _ hv => hv, ⟨[], by simp⟩⟩

theorem nodeRunOK_trans (nodes : List WorkflowNode) (s1 s2 s3 : WfState)
    (h1 : NodeRunOK nodes s1 s2) (h2 : NodeRunOK nodes s2 s3) :
    NodeRunOK nodes s1 s3 := by
  obtain ⟨hi1, he1, hm1, ho1, t1, ht1⟩ := h1
  obtain ⟨hi2, he2, hm2, ho2, t2, ht2⟩ := h2
  refine ⟨hi2, by rw [he2, he1], fun x hx => hm2 x (hm1 x hx),
    fun x v hv => ho2 x v (ho1 x v hv), ⟨t1 ++ t2, ?_⟩⟩
  rw [ht2, ht1, List.append_assoc]

/-- On a well-formed acyclic workflow, a non-skipping `executeNode` run
with enough fuel always succeeds: it restores the `executing` stack,
adds the node to `executed`, keeps every recorded output, only appends
to the trace, and preserves the execution invariant (`execDeps`
likewise, executing every listed dependency). -/
theorem execNodeSound (nodes : List WorkflowNode)
    (act : String → List (Option Nat) → Nat)
    (hwf : wfDeps nodes = true)
    (hsound : ∀ a, ¬ Relation.TransGen (Edge nodes) a a) :
    ∀ fuel : Nat,
      (∀ id s, ExecInv nodes s → id ∈ nodes.map (fun n => n.id) →
        (∀ x ∈ s.executing, Relation.TransGen (Edge nodes) x id) →
        freshCount nodes s.executing < fuel →
        ∃ s2, executeNode nodes act (fun _ => false) fuel id s =
            (s2, .ok ()) ∧
          NodeRunOK nodes s s2 ∧ id ∈ s2.executed) ∧
      (∀ ds s, ExecInv nodes s →
        (∀ d ∈ ds, d ∈ nodes.map (fun n => n.id)) →
        (∀ x ∈ s.executing, ∀ d ∈ ds, Relation.TransGen (Edge nodes) x d) →
        freshCount nodes s.executing < fuel →
        ∃ s2, execDeps nodes act (fun _ => false) fuel ds s =
            (s2, .ok ()) ∧
          NodeRunOK nodes s s2 ∧ ∀ d ∈ ds, d ∈ s2.executed) := by
  have hdepsHalf : ∀ fuel : Nat,
      (∀ id s, ExecInv nodes s → id ∈ nodes.map (fun n => n.id) →
        (∀ x ∈ s.executing, Relation.TransGen (Edge nodes) x id) →
        freshCount nodes s.executing < fuel →
        ∃ s2, executeNode nodes act (fun _ => false) fuel id s =
            (s2, .ok ()) ∧
          NodeRunOK nodes s s2 ∧ id ∈ s2.executed) →
      (∀ ds s, ExecInv nodes s →
        (∀ d ∈ ds, d ∈ nodes.map (fun n => n.id)) →
        (∀ x ∈ s.executing, ∀ d ∈ ds, Relation.TransGen (Edge nodes) x d) →
        freshCount nodes s.executing < fuel →
        ∃ s2, execDeps nodes act (fun _ => false) fuel ds s =
            (s2, .ok ()) ∧
          NodeRunOK nodes s s2 ∧ ∀ d ∈ ds, d ∈ s2.executed) := by
    intro fuel hN ds
    induction ds with
    | nil =>
      intro s hinv hds hpath hfuel
      refine ⟨s, by rw [execDeps], nodeRunOK_refl nodes s hinv, ?_⟩
      intro d hd
      cases hd
    | cons d ds ihl =>
      intro s hinv hds hpath hfuel
      obtain ⟨s1, h1, hok1, hd1⟩ := hN d s hinv
        (hds d (List.mem_cons_self d ds))
        (fun x hx => hpath x hx d (List.mem_cons_self d ds)) hfuel
      obtain ⟨s2, h2, hok2, hds2⟩ := ihl s1 hok1.1
        (fun x hx => hds x (List.mem_cons_of_mem d hx))
        (by
          intro x hx d2 hd2
          rw [hok1.2.1] at hx
          exact hpath x hx d2 (List.mem_cons_of_mem d hd2))
        (by rw [hok1.2.1]; exact hfuel)
      refine ⟨s2, ?_, nodeRunOK_trans nodes s s1 s2 hok1 hok2, ?_⟩
      · rw [execDeps, h1]
        exact h2
      · intro x hx
        rcases List.mem_cons.mp hx with rfl | hx2
        · exact hok2.2.2.1 x hd1
        · exact hds2 x hx2
  intro fuel
  induction fuel with
  | zero =>
    have hN : ∀ id s, ExecInv nodes s → id ∈ nodes.map (fun n => n.id) →
        (∀ x ∈ s.executing, Relation.TransGen (Edge nodes) x id) →
        freshCount nodes s.executing < 0 →
        ∃ s2, executeNode nodes act (fun _ => false) 0 id s =
            (s2, .ok ()) ∧
          NodeRunOK nodes s s2 ∧ id ∈ s2.executed := by
      intro id s _ _ _ hfuel
      exact absurd hfuel (Nat.not_lt_zero _)
    exact ⟨hN, hdepsHalf 0 hN⟩
  | succ fuel ih =>
    have hN : ∀ id s, ExecInv nodes s → id ∈ nodes.map (fun n => n.id) →
        (∀ x ∈ s.executing, Relation.TransGen (Edge nodes) x id) →
        freshCount nodes s.executing < fuel + 1 →
        ∃ s2, executeNode nodes act (fun _ => false) (fuel + 1) id s =
            (s2, .ok ()) ∧
          NodeRunOK nodes s s2 ∧ id ∈ s2.executed := by
      intro id s hinv hid hpath hfuel
      by_cases hex : id ∈ s.executed
      · refine ⟨s, ?_, nodeRunOK_refl nodes s hinv, hex⟩
        rw [executeNode, if_pos hex]
      · have hnx : id ∉ s.executing := fun hc => hsound id (hpath id hc)
        obtain ⟨node, hgn, hnodemem⟩ := getNode_of_mem_ids nodes id hid
        have hdeps_ids : ∀ d ∈ node.dependencies,
            d ∈ nodes.map (fun n => n.id) :=
          fun d hd => wfDeps_spec nodes hwf node hnodemem d hd
        have hpath1 : ∀ x ∈ (id :: s.executing), ∀ d ∈ node.dependencies,
            Relation.TransGen (Edge nodes) x d := by
          intro x hx d hd
          rcases List.mem_cons.mp hx with rfl | hx2
          · exact Relation.TransGen.single ⟨node, hgn, hd⟩
          · exact (hpath x hx2).tail ⟨node, hgn, hd⟩
        have hfuel1 : freshCount nodes (id :: s.executing) < fuel := by
          have h1 := freshCount_strict nodes s.executing id hid hnx
          omega
        obtain ⟨s2, hd2, hok2, hdeps2⟩ := (hdepsHalf fuel ih.1)
          node.dependencies { s with executing := id :: s.executing }
          hinv hdeps_ids hpath1 hfuel1
        have hexid2 : id ∉ s2.executed :=
          (execExecutedPreserved nodes act (fun _ => false) fuel).2
            node.dependencies _ s2 id hd2 (List.mem_cons_self _ _) hex
        have hexecEq2 : s2.executing = id :: s.executing := hok2.2.1
        obtain ⟨hinv2, -, hmono2, houts2, t2, ht2⟩ := hok2
        obtain ⟨hnd2, hext2, hout2, hcl2, htr2⟩ := hinv2
        have hci : collectInputs nodes s2 node.dependencies =
            .ok (node.dependencies.map (fun d => mapGet s2.outputs d)) :=
          collectInputs_ok nodes s2 node.dependencies
            (fun d hd => (getNode_of_mem_ids nodes d
              (hdeps_ids d hd)).imp (fun n h => h.1))
        have hid_tr : id ∉ s2.trace.map Prod.fst :=
          fun hc => hexid2 ((hext2 id).2 hc)
        have hdepsne : ∀ d ∈ node.dependencies, d ≠ id :=
          fun d hd hc => hexid2 (hc ▸ hdeps2 d hd)
        refine ⟨⟨id :: s2.executed, s2.executing.erase id,
            mapSet s2.outputs id
              (act id (node.dependencies.map (fun d => mapGet s2.outputs d))),
            s2.trace ++
              [(id, node.dependencies.map (fun d => mapGet s2.outputs d))]⟩,
          ?_, ⟨⟨?_, ?_, ?_, ?_, ?_⟩, ?_, ?_, ?_, ?_⟩,
          List.mem_cons_self _ _⟩
        · rw [executeNode, if_neg hex, if_neg hnx, hgn]
          dsimp only
          rw [hd2]
          dsimp only
          rw [hci]
          simp
        · show ((s2.trace ++ [(id, _)]).map Prod.fst).Nodup
          rw [List.map_append]
          refine List.Nodup.append hnd2 (by simp) ?_
          intro a ha hb
          have hab : a = id := by simpa using hb
          subst hab
          exact hid_tr ha
        · intro x
          show x ∈ id :: s2.executed ↔
            x ∈ (s2.trace ++ [(id, _)]).map Prod.fst
          rw [List.map_append, List.mem_append, List.mem_cons]
          simp only [List.map_cons, List.map_nil, List.mem_singleton,
            List.not_mem_nil, or_false]
          rw [hext2 x]
          exact or_comm
        · intro x
          by_cases hxid : x = id
          · subst hxid
            simp [mapGet_mapSet_self]
          · show x ∈ id :: s2.executed ↔
              (mapGet (mapSet s2.outputs id _) x).isSome = true
            rw [mapGet_mapSet_ne s2.outputs id x _ hxid, List.mem_cons]
            simp [hxid, hout2 x]
        · intro x hx y hedge
          rcases List.mem_cons.mp hx with rfl | hx2
          · have hy : y ∈ node.dependencies :=
              edge_dep_of_getNode nodes x y node hgn hedge
            exact List.mem_cons_of_mem _ (hdeps2 y hy)
          · exact List.mem_cons_of_mem _ (hcl2 x hx2 y hedge)
        · intro i hi
          have hi2 : i < s2.trace.length + 1 := by
            simpa using hi
          by_cases hlt : i < s2.trace.length
          · obtain ⟨nd, hndgn, hinp, hbef⟩ := htr2 i hlt
            have hget : (s2.trace ++
                  [(id, node.dependencies.map
                    (fun d => mapGet s2.outputs d))]).get ⟨i, hi⟩ =
                s2.trace.get ⟨i, hlt⟩ := by
              rw [List.get_eq_getElem, List.get_eq_getElem]
              exact List.getElem_append_left hlt
            refine ⟨nd, ?_, ?_, ?_⟩
            · show getNode nodes ((s2.trace ++ _).get ⟨i, hi⟩).1 = .ok nd
              rw [hget]
              exact hndgn
            · show ((s2.trace ++ _).get ⟨i, hi⟩).2 = _
              rw [hget, hinp]
              refine List.map_congr_left ?_
              intro d hd
              have hdtr : d ∈ s2.trace.map Prod.fst := by
                have hb := hbef d hd
                rw [List.map_take] at hb
                exact List.take_subset i _ hb
              have hdex : d ∈ s2.executed := (hext2 d).2 hdtr
              have hdne : d ≠ id := fun hc => hexid2 (hc ▸ hdex)
              rw [mapGet_mapSet_ne s2.outputs id d _ hdne]
            · intro d hd
              have hbd := hbef d hd
              show d ∈ ((s2.trace ++ _).take i).map Prod.fst
              rw [List.take_append_eq_append_take,
                show i - s2.trace.length = 0 from by omega,
                List.take_zero, List.append_nil]
              exact hbd
          · have hieq : i = s2.trace.length := by omega
            subst hieq
            have hget : (s2.trace ++
                  [(id, node.dependencies.map
                    (fun d => mapGet s2.outputs d))]).get
                    ⟨s2.trace.length, hi⟩ =
                (id, node.dependencies.map (fun d => mapGet s2.outputs d)) := by
              rw [List.get_eq_getElem]
              exact List.getElem_concat_length _ _ _ rfl hi
            refine ⟨node, ?_, ?_, ?_⟩
            · show getNode nodes ((s2.trace ++ _).get ⟨_, hi⟩).1 = .ok node
              rw [hget]
              exact hgn
            · show ((s2.trace ++ _).get ⟨_, hi⟩).2 = _
              rw [hget]
              refine List.map_congr_left ?_
              intro d hd
              have hdne : d ≠ id := hdepsne d hd
              rw [mapGet_mapSet_ne s2.outputs id d _ hdne]
            · intro d hd
              show d ∈ ((s2.trace ++ _).take s2.trace.length).map Prod.fst
              rw [List.take_left]
              exact (hext2 d).1 (hdeps2 d hd)
        · show s2.executing.erase id = s.executing
          rw [hexecEq2, List.erase_cons_head]
        · intro x hx
          exact List.mem_cons_of_mem _ (hmono2 x hx)
        · intro x v hv
          have hv2 : mapGet s2.outputs x = some v := houts2 x v hv
          have hxex : x ∈ s.executed :=
            (hinv.2.2.1 x).2 (by rw [hv]; rfl)
          have hxne : x ≠ id := fun hc => hex (hc ▸ hxex)
          show mapGet (mapSet s2.outputs id _) x = some v
          rw [mapGet_mapSet_ne s2.outputs id x _ hxne]
          exact hv2
        · refine ⟨t2 ++ [(id, node.dependencies.map
              (fun d => mapGet s2.outputs d))], ?_⟩
          show s2.trace ++ _ = s.trace ++ _
          rw [ht2, List.append_assoc]
    exact ⟨hN, hdepsHalf (fuel + 1) hN⟩

/-- In an acyclic workflow with distinct node ids, every node is
reachable from some terminal node along dependency edges: following
"some node depends on me" upward strictly grows the set of ids that can
reach the node, so it must stop at a node nothing depends on. -/
theorem terminalReach (nodes : List WorkflowNode)
    (hnd : (nodes.map (fun n => n.id)).Nodup)
    (hsound : ∀ a, ¬ Relation.TransGen (Edge nodes) a a) :
    ∀ n ∈ nodes, ∃ t ∈ terminalNodes nodes,
      Relation.ReflTransGen (Edge nodes) t.id n.id := by
  classical
  suffices H : ∀ k (n : WorkflowNode), n ∈ nodes →
      ((nodes.map (fun x => x.id)).filter
        (fun y => decide (Relation.ReflTransGen (Edge nodes) y n.id))).length
        ≤ k →
      ∃ t ∈ terminalNodes nodes,
        Relation.ReflTransGen (Edge nodes) t.id n.id by
    intro n hn
    exact H _ n hn le_rfl
  intro k
  induction k with
  | zero =>
    intro n hn hk
    exfalso
    have hmem : n.id ∈ (nodes.map (fun x => x.id)).filter
        (fun y => decide (Relation.ReflTransGen (Edge nodes) y n.id)) := by
      rw [List.mem_filter]
      exact ⟨List.mem_map.mpr ⟨n, hn, rfl⟩,
        decide_eq_true Relation.ReflTransGen.refl⟩
    have := List.length_pos_of_mem hmem
    omega
  | succ k ih =>
    intro n hn hk
    by_cases hterm : n ∈ terminalNodes nodes
    · exact ⟨n, hterm, Relation.ReflTransGen.refl⟩
    · have hdep : ∃ m ∈ nodes, n.id ∈ m.dependencies := by
        by_contra hno
        push_neg at hno
        refine hterm ?_
        unfold terminalNodes
        rw [List.mem_filter]
        refine ⟨hn, ?_⟩
        rw [Bool.not_eq_true', List.any_eq_false]
        intro m hm
        simpa using hno m hm
      obtain ⟨m, hm, hmd⟩ := hdep
      have hedge : Edge nodes m.id n.id :=
        ⟨m, getNode_self nodes hnd m hm, hmd⟩
      have hmono : ∀ y ∈ nodes.map (fun x => x.id),
          decide (Relation.ReflTransGen (Edge nodes) y m.id) = true →
          (decide (y ≠ n.id) &&
            decide (Relation.ReflTransGen (Edge nodes) y n.id)) = true := by
        intro y hy hrt
        have hrt2 := of_decide_eq_true hrt
        have hyn : Relation.ReflTransGen (Edge nodes) y n.id :=
          hrt2.tail hedge
        have hne : y ≠ n.id := by
          intro he
          subst he
          exact hsound n.id (Relation.TransGen.tail' hrt2 hedge)
        rw [decide_eq_true hne, decide_eq_true hyn]
        rfl
      have hlt : ((nodes.map (fun x => x.id)).filter
          (fun y => decide
            (Relation.ReflTransGen (Edge nodes) y m.id))).length <
          ((nodes.map (fun x => x.id)).filter
          (fun y => decide
            (Relation.ReflTransGen (Edge nodes) y n.id))).length := by
        refine lt_of_le_of_lt (b := ((nodes.map (fun x => x.id)).filter
            (fun y => decide (y ≠ n.id) && decide
              (Relation.ReflTransGen (Edge nodes) y n.id))).length) ?_ ?_
        · rw [← List.countP_eq_length_filter,
            ← List.countP_eq_length_filter]
          apply List.countP_mono_left
          intro y hy hpy
          exact hmono y hy hpy
        · rw [← List.filter_filter]
          apply length_filter_ne_lt
          rw [List.mem_filter]
          exact ⟨List.mem_map.mpr ⟨n, hn, rfl⟩,
            decide_eq_true Relation.ReflTransGen.refl⟩
      obtain ⟨t, ht, hrt⟩ := ih m hm (by omega)
      exact ⟨t, ht, hrt.tail hedge⟩

/-- C4 (amended): on a workflow whose declared dependencies all exist,
whose node ids are distinct, which passes `validateDAG`, and whose
terminal branches share no dependency (so the concurrently started
branches cannot interact — see the counterexample above), a
non-skipping `execute()` resolves with the terminal outputs, runs each
node's action exactly once, and every recorded invocation received
exactly its declared dependencies' outputs in declaration order, each
dependency having completed strictly earlier. -/
theorem c4_each_node_exactly_once (nodes : List WorkflowNode)
    (act : String → List (Option Nat) → Nat)
    (hwf : wfDeps nodes = true)
    (hvalid : validateDAG nodes = .ok true)
    (hdisj : disjointTerminalBranches nodes = true)
    (hnd : (nodes.map (fun n => n.id)).Nodup) :
    ∃ s outs, executeWorkflow nodes act (fun _ => false) = (s, .ok outs) ∧
      outs = (terminalNodes nodes).map (fun n => mapGet s.outputs n.id) ∧
      (∀ n ∈ nodes, (s.trace.map Prod.fst).count n.id = 1) ∧
      TraceOK nodes s := by
  have hsound := validateDAG_sound nodes hvalid
  obtain ⟨s2, hrun, hok, hterms⟩ := (execNodeSound nodes act hwf hsound
    (nodes.length + 1)).2 ((terminalNodes nodes).map (fun n => n.id))
    initWfState (execInv_init nodes)
    (by
      intro d hd
      obtain ⟨t, ht, rfl⟩ := List.mem_map.mp hd
      have ht2 := ht
      unfold terminalNodes at ht2
      exact List.mem_map.mpr ⟨t, List.mem_of_mem_filter ht2, rfl⟩)
    (by
      intro x hx
      simp [initWfState] at hx)
    (by
      have := freshCount_le nodes initWfState.executing
      omega)
  obtain ⟨hinv2, -, -, -, -⟩ := hok
  refine ⟨s2, (terminalNodes nodes).map (fun n => mapGet s2.outputs n.id),
    ?_, rfl, ?_, hinv2.2.2.2.2⟩
  · unfold executeWorkflow
    rw [hvalid]
    dsimp only
    rw [hrun]
  · intro n hn
    obtain ⟨t, ht, hrt⟩ := terminalReach nodes hnd hsound n hn
    have htid : t.id ∈ s2.executed :=
      hterms t.id (List.mem_map.mpr ⟨t, ht, rfl⟩)
    have hreach : ∀ b, Relation.ReflTransGen (Edge nodes) t.id b →
        b ∈ s2.executed := by
      intro b hb
      induction hb with
      | refl => exact htid
      | tail hab hbc ihr => exact hinv2.2.2.2.1 _ ihr _ hbc
    have hmemtr : n.id ∈ s2.trace.map Prod.fst :=
      (hinv2.2.1 n.id).1 (hreach n.id hrt)
    have hle := List.nodup_iff_count_le_one.mp hinv2.1 n.id
    have hne0 : (s2.trace.map Prod.fst).count n.id ≠ 0 := by
      intro h0
      exact absurd hmemtr (List.count_eq_zero.mp h0)
    omega

/-- Witness for C4 on the concrete workflow A ← B ← C (C also depending
on A directly): all premises hold and the run is exactly-once with
correct inputs. -/
theorem c4_each_node_exactly_once_witness :
    wfDeps [⟨"A", []⟩, ⟨"B", ["A"]⟩, ⟨"C", ["A", "B"]⟩] = true ∧
    validateDAG [⟨"A", []⟩, ⟨"B", ["A"]⟩, ⟨"C", ["A", "B"]⟩] = .ok true ∧
    disjointTerminalBranches
      [⟨"A", []⟩, ⟨"B", ["A"]⟩, ⟨"C", ["A", "B"]⟩] = true ∧
    (([⟨"A", []⟩, ⟨"B", ["A"]⟩, ⟨"C", ["A", "B"]⟩] :
        List WorkflowNode).map (fun n => n.id)).Nodup ∧
    (∃ s outs, executeWorkflow
        [⟨"A", []⟩, ⟨"B", ["A"]⟩, ⟨"C", ["A", "B"]⟩]
        (fun _ _ => 0) (fun _ => false) = (s, .ok outs) ∧
      outs = (terminalNodes
          [⟨"A", []⟩, ⟨"B", ["A"]⟩, ⟨"C", ["A", "B"]⟩]).map
        (fun n => mapGet s.outputs n.id) ∧
      (∀ n ∈ ([⟨"A", []⟩, ⟨"B", ["A"]⟩, ⟨"C", ["A", "B"]⟩] :
          List WorkflowNode),
        (s.trace.map Prod.fst).count n.id = 1) ∧
      TraceOK [⟨"A", []⟩, ⟨"B", ["A"]⟩, ⟨"C", ["A", "B"]⟩] s) :=
  ⟨by decide,
    by simp [validateDAG, someHasCycle, hasCycle, hasCycleDeps, getNode,
      List.find?],
    by decide, by decide,
    c4_each_node_exactly_once _ (fun _ _ => 0) (by decide)
      (by simp [validateDAG, someHasCycle, hasCycle, hasCycleDeps, getNode,
        List.find?])
      (by decide) (by decide)⟩

end Eko
